import Mathlib

/-!
Verification development for the LNLib NURBS curve engine
(src/LNLib/Geometry/Curve/NurbsCurve.cpp).

The C++ code works on parallel buffers: a knot vector (std::vector of double)
and a control net (std::vector of XYZW, weighted 4D points).  We embed the
buffers as Lean lists over an exact linear ordered field (rationals for the
decidable developments, reals where pi and trigonometric functions occur),
std::vector::resize as truncate-or-pad, and operator[] writes as List.set.
Collaborator classes that are not part of the sources (Polynomials,
ValidationUtils, MathUtils, XYZ/XYZW, Interpolation, Intersection) are
modelled from the specification; each such definition carries a doc comment
starting with the words Modelled from the spec.
-/

namespace LNLib

/-- Read of a C++ std::vector at a (possibly negative) int index; out-of-range
reads are undefined behaviour in C++ and are totalized here with a default. -/
def igetD {α : Type*} (l : List α) (i : ℤ) (d : α) : α :=
  if 0 ≤ i then l.getD i.toNat d else d

/-- Write of a C++ std::vector at a (possibly negative) int index; out-of-range
writes are undefined behaviour in C++ and are totalized here as a no-op. -/
def iset {α : Type*} (l : List α) (i : ℤ) (a : α) : List α :=
  if 0 ≤ i then l.set i.toNat a else l

/-- std::vector::resize n: keep the first n elements, pad with
value-initialized elements when growing. -/
def resizeTo {α : Type*} (l : List α) (n : ℕ) (d : α) : List α :=
  l.take n ++ List.replicate (n - l.length) d

/-- The integers a, a+1, ..., b (empty when b < a): the index sequence of a
C++ loop for (int i = a; i <= b; i++). -/
def intsFromTo (a b : ℤ) : List ℤ :=
  (List.range (b + 1 - a).toNat).map fun k : ℕ => a + (k : ℤ)

/-- Modelled from the spec: class XYZ, a 3D Cartesian point/vector with
componentwise arithmetic (the class itself is not among the sources). -/
abbrev XYZ (K : Type*) := Fin 3 → K

/-- Modelled from the spec: class XYZW, a weighted 4D control point (x,y,z,w)
with componentwise arithmetic on all four coordinates (the class itself is
not among the sources). -/
abbrev XYZW (K : Type*) := Fin 4 → K

/-- The constructor XYZW(XYZ, w). -/
def mkXYZW {K : Type*} (p : XYZ K) (w : K) : XYZW K :=
  ![p 0, p 1, p 2, w]

/-- Modelled from the spec: XYZW::ToXYZ(true), the projection
(x, y, z, w) ↦ (x/w, y/w, z/w). -/
def toXYZ {K : Type*} [Field K] (q : XYZW K) : XYZ K :=
  ![q 0 / q 3, q 1 / q 3, q 2 / q 3]

/-- Modelled from the spec: XYZW::ToXYZ(false), the raw homogeneous view
(x, y, z). -/
def toXYZraw {K : Type*} (q : XYZW K) : XYZ K :=
  ![q 0, q 1, q 2]

/-- The weight accessor XYZW::GetW. -/
def getW {K : Type*} (q : XYZW K) : K := q 3

/-- Componentwise division of an XYZW by a scalar. -/
def pdiv {K : Type*} [Field K] (q : XYZW K) (c : K) : XYZW K :=
  fun j => q j / c

/-- Modelled from the spec: squared Euclidean distance of two weighted points.
The C++ XYZW::Distance is the square root of this quantity; every comparison
Distance(a,b) <= tol of the sources is embedded as the equivalent
distSq a b <= tol * tol (both sides of the original comparison are
nonnegative). -/
def distSq {K : Type*} [CommRing K] {n : ℕ} (a b : Fin n → K) : K :=
  ∑ j, (a j - b j) ^ 2

/-- Modelled from the spec: XYZ dot product. -/
def dotXYZ {K : Type*} [CommRing K] (a b : XYZ K) : K :=
  ∑ j, a j * b j

/-- Modelled from the spec: squared length of an XYZ; the C++ XYZ::Length is
its square root and every comparison Length < eps of the sources is embedded
as the equivalent sqLen < eps^2. -/
def sqLenXYZ {K : Type*} [CommRing K] (a : XYZ K) : K :=
  ∑ j, a j ^ 2

/-- Modelled from the spec: ValidationUtils::IsValidKnotVector, a
nondecreasing sequence of reals. -/
def isValidKnotVector {K : Type*} [LinearOrder K] (U : List K) : Prop :=
  U.Chain' (· ≤ ·)

instance {K : Type*} [LinearOrder K] (U : List K) : Decidable (isValidKnotVector U) := by
  unfold isValidKnotVector; infer_instance

/-- Modelled from the spec: ValidationUtils::IsValidNurbs, the NURBS identity
m = n + p + 1, i.e. |U| = |P| + degree + 1. -/
def isValidNurbs (degree knotCount cpCount : ℕ) : Prop :=
  knotCount = cpCount + degree + 1

instance (degree knotCount cpCount : ℕ) : Decidable (isValidNurbs degree knotCount cpCount) := by
  unfold isValidNurbs; infer_instance

/-- Modelled from the spec: Polynomials::GetKnotMultiplicity, the number of
exact matches of t in U (the spec allows a tolerance, default 1e-10; the
embedding uses exact equality, which agrees on the exact rational inputs used
here). -/
def getKnotMultiplicity {K : Type*} [LinearOrder K] (U : List K) (t : K) : ℕ :=
  (U.filter (fun x => x = t)).length

/-- Helper for the span search: the largest index k <= bound with U[k] <= t,
or 0 when there is none. -/
def findSpanAux {K : Type*} [LinearOrder K] [Zero K] (U : List K) (t : K) : ℕ → ℕ
  | 0 => 0
  | k + 1 => if U.getD (k + 1) 0 ≤ t then k + 1 else findSpanAux U t k

/-- Modelled from the spec: Polynomials::GetKnotSpanIndex returns the
knot-span index k in [degree, n], n = |U| - degree - 2, with
U[k] <= t < U[k+1]; for t at (or beyond) U[n+1] it returns n. -/
def getKnotSpanIndex {K : Type*} [LinearOrder K] [Zero K] (degree : ℕ) (U : List K) (t : K) : ℕ :=
  let n := U.length - degree - 2
  if U.getD (n + 1) 0 ≤ t then n else max degree (findSpanAux U t n)

/-- Modelled from the spec: the B-spline basis function N_{i,p}(t) over knot
vector U by the Cox-de Boor recurrence.  Division by zero yields zero in the
field, which realizes the standard 0/0 = 0 convention for vanishing knot
spans.  Out-of-range knot reads default to 0 and never occur for the index
ranges used by the curve evaluations below. -/
def basisN {K : Type*} [LinearOrderedField K] (U : List K) (i : ℕ) (p : ℕ) (t : K) : K :=
  match p with
  | 0 => if U.getD i 0 ≤ t ∧ t < U.getD (i + 1) 0 then 1 else 0
  | q + 1 =>
      (t - U.getD i 0) / (U.getD (i + q + 1) 0 - U.getD i 0) * basisN U i q t
      + (U.getD (i + q + 2) 0 - t) / (U.getD (i + q + 2) 0 - U.getD (i + 1) 0) * basisN U (i + 1) q t

/-- NurbsCurve::ReverseKnotVector (NurbsCurve.cpp lines 978-991).  Note the
C++ signature takes its output argument reversedKnotVector by value, so the
list built here is a local copy; the function returns that local value. -/
def ReverseKnotVector (knotVector reversedKnotVector : List ℚ) : List ℚ :=
  let size := knotVector.length
  let mn := knotVector.getD 0 0
  let r0 := resizeTo reversedKnotVector size 0
  let r1 := r0.set 0 mn
  (List.range' 1 (size - 1)).foldl
    (fun r i =>
      r.set i (r.getD (i - 1) 0 + (knotVector.getD (size - i) 0 - knotVector.getD (size - i - 1) 0)))
    r1

/-- NurbsCurve::ReverseControlPoints (NurbsCurve.cpp lines 993-1002).  The
output argument reversedControlPoints is likewise taken by value. -/
def ReverseControlPoints (controlPoints reversedControlPoints : List (XYZW ℚ)) : List (XYZW ℚ) :=
  let size := controlPoints.length
  let r0 := resizeTo reversedControlPoints size 0
  let r1 := (List.range size).foldl (fun r i => r.set i (controlPoints.getD i 0)) r0
  r1.reverse

/-- NurbsCurve::Reverse (NurbsCurve.cpp lines 1004-1008).  It forwards its
reference output arguments to ReverseKnotVector and ReverseControlPoints,
but those two helpers receive their output parameters by value (lines 978 and
993), so they mutate local copies; the value returned here is the post-call
state of the caller's two output arguments. -/
def Reverse (knotVector : List ℚ) (controlPoints : List (XYZW ℚ))
    (reversedKnotVector : List ℚ) (reversedControlPoints : List (XYZW ℚ)) :
    List ℚ × List (XYZW ℚ) :=
  let _discardedKv := ReverseKnotVector knotVector reversedKnotVector
  let _discardedCp := ReverseControlPoints controlPoints reversedControlPoints
  (reversedKnotVector, reversedControlPoints)

/-- NurbsCurve::EquallyTessellate (NurbsCurve.cpp lines 825-850), restricted
to the parameter buffer correspondingKnots that the routine emits; uniqueKv
is the knot vector with consecutive duplicates removed (std::unique).  The
loop body reads uniqueKv[i - 1] (line 840), which for i = 0 is an
out-of-bounds read (undefined behaviour), totalized here by igetD; it emits
currentU + step * i, a quantity independent of the inner loop variable j. -/
def equallyTessellateParams (knotVector : List ℚ) : List ℚ :=
  let uniqueKv := knotVector.destutter (· ≠ ·)
  let size := uniqueKv.length
  let intervals : ℕ := 100
  let ks := (List.range (size - 1)).foldl
    (fun acc i =>
      let currentU := uniqueKv.getD i 0
      let nextU := igetD uniqueKv ((i : ℤ) - 1) 0
      let step := (nextU - currentU) / (intervals : ℚ)
      (List.range intervals).foldl (fun acc2 _j => acc2 ++ [currentU + step * (i : ℚ)]) acc)
    []
  ks ++ [knotVector.getD (knotVector.length - 1) 0]

/-- Modelled from the spec: the corrected tessellation semantics of spec
section 9(a): sample each unique knot interval [uniqueKv[i], uniqueKv[i+1]]
with 100 steps, emitting parameters that start at the left endpoint and
advance by the interval length divided by 100, then append the last knot. -/
def specTessellateParams (knotVector : List ℚ) : List ℚ :=
  let uniqueKv := knotVector.destutter (· ≠ ·)
  let size := uniqueKv.length
  let intervals : ℕ := 100
  let ks := (List.range (size - 1)).foldl
    (fun acc i =>
      let currentU := uniqueKv.getD i 0
      let nextU := uniqueKv.getD (i + 1) 0
      let step := (nextU - currentU) / (intervals : ℚ)
      (List.range intervals).foldl (fun acc2 j => acc2 ++ [currentU + step * (j : ℚ)]) acc)
    []
  ks ++ [knotVector.getD (knotVector.length - 1) 0]

/-- Constants::DistanceEpsilon, the distance convergence tolerance 1e-6. -/
def DistanceEpsilon : ℚ := 1 / 1000000

/-- The candidate-parameter adjustment performed after each Newton step inside
NurbsCurve::GetParamOnCurve (NurbsCurve.cpp lines 931-952): when isClosed
holds the candidate is clamped to [a, b]; in the open-curve branch it is
wrapped around the domain (the second test reads the already-updated value,
as in the source). -/
def newtonCandidateAdjust (isClosed : Bool) (a b temp : ℚ) : ℚ :=
  if isClosed then
    let t1 := if temp < a then a else temp
    if t1 > b then b else t1
  else
    let t1 := if temp < a then b - (a - temp) else temp
    if t1 > b then a + (t1 - b) else t1

/-- Modelled from the spec (section 4.3.10): wrap the candidate parameter into
the domain [a, b], the treatment the spec prescribes for closed curves. -/
def specWrapIntoDomain (a b temp : ℚ) : ℚ :=
  if temp < a then b - (a - temp) else if temp > b then a + (temp - b) else temp

/-- Modelled from the spec (section 4.3.10): clamp the candidate parameter to
the domain [a, b], the treatment the spec prescribes for open curves. -/
def specClampIntoDomain (a b temp : ℚ) : ℚ :=
  if temp < a then a else if temp > b then b else temp

/-- The Newton refinement loop of NurbsCurve::GetParamOnCurve
(NurbsCurve.cpp lines 912-961).  The derivative computations delegate to
ComputeRationalCurveDerivatives, whose B-spline core is not among the
sources; the loop is therefore parametrized by an oracle ders giving the
0th/1st/2nd derivatives at a parameter.  Length comparisons against
Constants::DistanceEpsilon are embedded by their equivalent squared forms.
Returns the final parameter together with the number of loop iterations that
were executed. -/
def newtonLoop (ders : ℚ → XYZ ℚ × XYZ ℚ × XYZ ℚ) (givenPoint : XYZ ℚ)
    (isClosed : Bool) (a b : ℚ) : ℕ → ℚ → ℚ × ℕ
  | 0, paramT => (paramT, 0)
  | fuel + 1, paramT =>
      let d := ders paramT
      let difference : XYZ ℚ := d.1 - givenPoint
      let f := dotXYZ d.2.1 difference
      if sqLenXYZ difference < DistanceEpsilon ^ 2 ∧
          f ^ 2 < DistanceEpsilon ^ 2 * (sqLenXYZ d.2.1 * sqLenXYZ difference) then
        (paramT, 0)
      else
        let df := dotXYZ d.2.2 difference + dotXYZ d.2.1 d.2.1
        let temp := paramT - f / df
        let temp2 := newtonCandidateAdjust isClosed a b temp
        if (temp2 - paramT) ^ 2 * sqLenXYZ d.2.1 < DistanceEpsilon ^ 2 then
          (paramT, 0)
        else
          let r := newtonLoop ders givenPoint isClosed a b fuel temp2
          (r.1, r.2 + 1)

/-- GetParamOnCurve runs the Newton refinement with maxIterations = 10
(NurbsCurve.cpp line 862). -/
def getParamOnCurveNewton (ders : ℚ → XYZ ℚ × XYZ ℚ × XYZ ℚ) (givenPoint : XYZ ℚ)
    (isClosed : Bool) (a b paramT0 : ℚ) : ℚ × ℕ :=
  newtonLoop ders givenPoint isClosed a b 10 paramT0

/-- The clamp at NurbsCurve.cpp lines 88-91: if originMultiplicity + times
exceeds the degree, times becomes degree - originMultiplicity. -/
def insertClampTimes (degree : ℕ) (originMultiplicity times : ℤ) : ℤ :=
  if originMultiplicity + times > degree then degree - originMultiplicity else times

/-- The knot-vector construction of InsertKnot (NurbsCurve.cpp lines 93-105):
resize the caller's buffer to |U| + times, copy U[0..k], place times copies
of the inserted value after position k, copy the remainder shifted. -/
def insertKnotNewKv (degree : ℕ) (knotVector : List ℚ) (u : ℚ)
    (knotSpanIndex times : ℤ) (kvInit : List ℚ) : List ℚ :=
  let kv0 := resizeTo kvInit (((knotVector.length : ℤ) + times).toNat) 0
  let kv1 := (intsFromTo 0 knotSpanIndex).foldl
      (fun kv i => iset kv i (igetD knotVector i 0)) kv0
  let kv2 := (intsFromTo 1 times).foldl
      (fun kv i => iset kv (knotSpanIndex + i) u) kv1
  let _ := degree
  (intsFromTo (knotSpanIndex + 1) ((knotVector.length : ℤ) - 1)).foldl
      (fun kv i => iset kv (i + times) (igetD knotVector i 0)) kv2

/-- One in-place update sweep of the temp buffer for insertion round j
(NurbsCurve.cpp lines 126-131).  Ascending i, temp[i] is rebuilt from the
not-yet-updated temp[i+1] and temp[i], with alpha read from the original
knot vector. -/
def insertKnotTempSweep (degree : ℕ) (knotVector : List ℚ) (u : ℚ)
    (knotSpanIndex originMultiplicity j : ℤ) (temp : List (XYZW ℚ)) : List (XYZW ℚ) :=
  let L := knotSpanIndex - degree + j
  (intsFromTo 0 ((degree : ℤ) - j - originMultiplicity)).foldl
    (fun tp i =>
      let alpha := (u - igetD knotVector (L + i) 0) /
          (igetD knotVector (i + knotSpanIndex + 1) 0 - igetD knotVector (L + i) 0)
      iset tp i (alpha • igetD tp (i + 1) 0 + (1 - alpha) • igetD tp i 0)) temp

/-- The insertion rounds j = 1..times of InsertKnot (NurbsCurve.cpp lines
123-134), carrying the temp buffer, the output control-point buffer and the
loop variable L (initialized 0 at line 123). -/
def insertKnotSweeps (degree : ℕ) (knotVector : List ℚ) (u : ℚ)
    (knotSpanIndex originMultiplicity times : ℤ)
    (temp : List (XYZW ℚ)) (cp : List (XYZW ℚ)) :
    List (XYZW ℚ) × List (XYZW ℚ) × ℤ :=
  (intsFromTo 1 times).foldl
    (fun st j =>
      let L := knotSpanIndex - degree + j
      let temp2 := insertKnotTempSweep degree knotVector u knotSpanIndex originMultiplicity j st.1
      let cpA := iset st.2.1 L (igetD temp2 0 0)
      let cpB := iset cpA (knotSpanIndex + times - j - originMultiplicity)
          (igetD temp2 ((degree : ℤ) - j - originMultiplicity) 0)
      (temp2, cpB, L))
    (temp, cp, 0)

/-- NurbsCurve::InsertKnot after its VALIDATE_ARGUMENT guards
(NurbsCurve.cpp lines 85-139).  The caller's two output vectors are received
by reference and resized; loop indices are embedded as integers exactly as in
the source (knotSpanIndex, originMultiplicity and times are ints there). -/
def InsertKnot (degree : ℕ) (knotVector : List ℚ) (controlPoints : List (XYZW ℚ))
    (u : ℚ) (times0 : ℤ) (insertedKnotVector0 : List ℚ)
    (updatedControlPoints0 : List (XYZW ℚ)) : List ℚ × List (XYZW ℚ) :=
  let knotSpanIndex : ℤ := getKnotSpanIndex degree knotVector u
  let originMultiplicity : ℤ := getKnotMultiplicity knotVector u
  let times : ℤ := insertClampTimes degree originMultiplicity times0
  let kv := insertKnotNewKv degree knotVector u knotSpanIndex times insertedKnotVector0
  let cp0 := resizeTo updatedControlPoints0 (((controlPoints.length : ℤ) + times).toNat) 0
  let cp1 := (intsFromTo 0 (knotSpanIndex - degree)).foldl
      (fun cp i => iset cp i (igetD controlPoints i 0)) cp0
  let cp2 := (intsFromTo (knotSpanIndex - originMultiplicity) ((controlPoints.length : ℤ) - 1)).foldl
      (fun cp i => iset cp (i + times) (igetD controlPoints i 0)) cp1
  let temp0 := resizeTo ([] : List (XYZW ℚ)) (((degree : ℤ) - originMultiplicity + 1).toNat) 0
  let temp1 := (intsFromTo 0 ((degree : ℤ) - originMultiplicity)).foldl
      (fun tp i => iset tp i (igetD controlPoints (knotSpanIndex - degree + i) 0)) temp0
  let st := insertKnotSweeps degree knotVector u knotSpanIndex originMultiplicity times temp1 cp2
  let cp4 := (intsFromTo (st.2.2 + 1) (knotSpanIndex - originMultiplicity - 1)).foldl
      (fun cp i => iset cp i (igetD st.1 (i - st.2.2) 0)) st.2.1
  (kv, cp4)

theorem length_iset {α : Type*} (l : List α) (i : ℤ) (a : α) : (iset l i a).length = l.length := by
  unfold iset; split <;> simp

theorem length_resizeTo {α : Type*} (l : List α) (n : ℕ) (d : α) :
    (resizeTo l n d).length = n := by
  simp [resizeTo]; omega

theorem foldl_invariant {σ ι : Type*} (P : σ → Prop) (step : σ → ι → σ)
    (h : ∀ s i, P s → P (step s i)) :
    ∀ (lst : List ι) (s0 : σ), P s0 → P (lst.foldl step s0) := by
  intro lst
  induction lst with
  | nil => intro s0 h0; exact h0
  | cons x xs ih => intro s0 h0; exact ih (step s0 x) (h s0 x h0)

theorem length_foldl_of_step {α ι : Type*} (step : List α → ι → List α)
    (h : ∀ l i, (step l i).length = l.length) (lst : List ι) (l0 : List α) :
    (lst.foldl step l0).length = l0.length :=
  foldl_invariant (fun l => l.length = l0.length) step
    (fun s i hs => by show (step s i).length = l0.length; rw [h]; exact hs) lst l0 rfl

theorem length_insertKnotNewKv (degree : ℕ) (knotVector : List ℚ) (u : ℚ)
    (knotSpanIndex times : ℤ) (kvInit : List ℚ) :
    (insertKnotNewKv degree knotVector u knotSpanIndex times kvInit).length =
      ((knotVector.length : ℤ) + times).toNat := by
  unfold insertKnotNewKv
  rw [length_foldl_of_step _ (fun l i => length_iset _ _ _),
    length_foldl_of_step _ (fun l i => length_iset _ _ _),
    length_foldl_of_step _ (fun l i => length_iset _ _ _), length_resizeTo]

theorem length_insertKnotSweeps_cp (degree : ℕ) (knotVector : List ℚ) (u : ℚ)
    (knotSpanIndex originMultiplicity times : ℤ)
    (temp cp : List (XYZW ℚ)) :
    (insertKnotSweeps degree knotVector u knotSpanIndex originMultiplicity times temp cp).2.1.length
      = cp.length := by
  unfold insertKnotSweeps
  exact foldl_invariant
    (fun st : List (XYZW ℚ) × List (XYZW ℚ) × ℤ => st.2.1.length = cp.length) _
    (fun s j hs => by
      show (iset (iset s.2.1 _ _) _ _).length = cp.length
      rw [length_iset, length_iset]; exact hs) _ _ rfl

/-- C4: for a valid curve, InsertKnot first clamps the requested count to
degree minus the current multiplicity of the inserted value (insertClampTimes)
and then returns a knot vector of length |U| + times and a control-point list
of length |P| + times, so the output again satisfies |U| = |P| + degree + 1. -/
theorem insertKnot_sizes (degree : ℕ) (knotVector : List ℚ) (controlPoints : List (XYZW ℚ))
    (u : ℚ) (times : ℤ) (kvInit : List ℚ) (cpInit : List (XYZW ℚ))
    (hdeg : 0 < degree)
    (hvalid : isValidNurbs degree knotVector.length controlPoints.length)
    (htimes : 0 < times)
    (hmult : getKnotMultiplicity knotVector u ≤ degree) :
    ((InsertKnot degree knotVector controlPoints u times kvInit cpInit).1.length : ℤ) =
        knotVector.length + insertClampTimes degree (getKnotMultiplicity knotVector u) times ∧
    ((InsertKnot degree knotVector controlPoints u times kvInit cpInit).2.length : ℤ) =
        controlPoints.length + insertClampTimes degree (getKnotMultiplicity knotVector u) times ∧
    (InsertKnot degree knotVector controlPoints u times kvInit cpInit).1.length =
      (InsertKnot degree knotVector controlPoints u times kvInit cpInit).2.length + degree + 1 := by
  have ht0 : 0 ≤ insertClampTimes degree (getKnotMultiplicity knotVector u) times := by
    unfold insertClampTimes; split <;> omega
  have h1 : (InsertKnot degree knotVector controlPoints u times kvInit cpInit).1.length =
      ((knotVector.length : ℤ) + insertClampTimes degree (getKnotMultiplicity knotVector u) times).toNat := by
    unfold InsertKnot
    dsimp only
    rw [length_insertKnotNewKv]
  have h2 : (InsertKnot degree knotVector controlPoints u times kvInit cpInit).2.length =
      ((controlPoints.length : ℤ) + insertClampTimes degree (getKnotMultiplicity knotVector u) times).toNat := by
    unfold InsertKnot
    dsimp only
    rw [length_foldl_of_step _ (fun l i => length_iset _ _ _),
      length_insertKnotSweeps_cp,
      length_foldl_of_step _ (fun l i => length_iset _ _ _),
      length_foldl_of_step _ (fun l i => length_iset _ _ _), length_resizeTo]
  unfold isValidNurbs at hvalid
  refine ⟨?_, ?_, ?_⟩
  · rw [h1]; omega
  · rw [h2]; omega
  · rw [h1, h2]; omega

/-- Witness for insertKnot_sizes: degree 2, U = [0,0,0,2,3,3,3], four control
points, inserting the value 1 once. -/
theorem insertKnot_sizes_witness :
    ((InsertKnot 2 [0,0,0,2,3,3,3] [0,0,0,0] 1 1 [] []).1.length : ℤ) =
        ([(0:ℚ),0,0,2,3,3,3] : List ℚ).length +
          insertClampTimes 2 (getKnotMultiplicity [(0:ℚ),0,0,2,3,3,3] 1) 1 ∧
    ((InsertKnot 2 [0,0,0,2,3,3,3] [0,0,0,0] 1 1 [] []).2.length : ℤ) =
        ([(0:XYZW ℚ),0,0,0] : List (XYZW ℚ)).length +
          insertClampTimes 2 (getKnotMultiplicity [(0:ℚ),0,0,2,3,3,3] 1) 1 ∧
    (InsertKnot 2 [0,0,0,2,3,3,3] [0,0,0,0] 1 1 [] []).1.length =
      (InsertKnot 2 [0,0,0,2,3,3,3] [0,0,0,0] 1 1 [] []).2.length + 2 + 1 :=
  insertKnot_sizes 2 [0,0,0,2,3,3,3] [0,0,0,0] 1 1 [] []
    (by decide) (by decide) (by decide) (by decide)

/-- C9: for every knot vector and control-point list, Reverse leaves the
caller-supplied output arguments reversedKnotVector and reversedControlPoints
exactly as they were before the call, because ReverseKnotVector and
ReverseControlPoints receive their output parameters by value; no reversed
data reaches the caller. -/
theorem reverse_leaves_outputs_unchanged (knotVector : List ℚ) (controlPoints : List (XYZW ℚ))
    (reversedKnotVector : List ℚ) (reversedControlPoints : List (XYZW ℚ)) :
    Reverse knotVector controlPoints reversedKnotVector reversedControlPoints =
      (reversedKnotVector, reversedControlPoints) := rfl

/-- C5 (counter-evidence): with domain [0,1] and Newton candidate 13/10, the
closed-curve branch of GetParamOnCurve clamps (yielding 1) where the spec
prescribes wrapping (yielding 3/10), and the open-curve branch wraps where
the spec prescribes clamping: the two treatments are swapped in the code. -/
theorem newtonAdjust_swaps_wrap_and_clamp :
    newtonCandidateAdjust true 0 1 (13/10) = 1 ∧
    specWrapIntoDomain 0 1 (13/10) = 3/10 ∧
    newtonCandidateAdjust false 0 1 (13/10) = 3/10 ∧
    specClampIntoDomain 0 1 (13/10) = 1 ∧
    newtonCandidateAdjust true 0 1 (13/10) ≠ specWrapIntoDomain 0 1 (13/10) ∧
    newtonCandidateAdjust false 0 1 (13/10) ≠ specClampIntoDomain 0 1 (13/10) := by
  norm_num [newtonCandidateAdjust, specWrapIntoDomain, specClampIntoDomain]

theorem newtonLoop_iters_le_fuel (ders : ℚ → XYZ ℚ × XYZ ℚ × XYZ ℚ)
    (givenPoint : XYZ ℚ) (isClosed : Bool) (a b : ℚ) :
    ∀ (fuel : ℕ) (t : ℚ), (newtonLoop ders givenPoint isClosed a b fuel t).2 ≤ fuel := by
  intro fuel
  induction fuel with
  | zero => intro t; simp [newtonLoop]
  | succ n ih =>
      intro t
      rw [newtonLoop]
      dsimp only
      split
      · exact Nat.zero_le _
      · split
        · exact Nat.zero_le _
        · exact Nat.succ_le_succ (ih _)

/-- C7: the Newton refinement loop of GetParamOnCurve executes at most
maxIterations = 10 iterations before returning the current parameter,
whatever the derivative oracle and the inputs are; in the shallow embedding
every curve operation is a total function, so each operation terminates. -/
theorem getParamOnCurveNewton_iterations_le_ten (ders : ℚ → XYZ ℚ × XYZ ℚ × XYZ ℚ)
    (givenPoint : XYZ ℚ) (isClosed : Bool) (a b paramT0 : ℚ) :
    (getParamOnCurveNewton ders givenPoint isClosed a b paramT0).2 ≤ 10 :=
  newtonLoop_iters_le_fuel ders givenPoint isClosed a b 10 paramT0

theorem foldl_append_const {α : Type*} (c : α) (n : ℕ) (acc : List α) :
    (List.range n).foldl (fun acc2 _ => acc2 ++ [c]) acc = acc ++ List.replicate n c := by
  induction n with
  | zero => simp
  | succ m ih => rw [List.range_succ, List.foldl_append, ih, List.replicate_succ']; simp

/-- C8 (evaluation of the code at a concrete curve): for the degree-1 curve
with knot vector [0,0,1,3,3] the tessellation routine emits the parameter 0
a hundred times for the interval [0,1] (its step is computed from the
out-of-bounds read uniqueKv[-1]) and the parameter 99/100 a hundred times for
the interval [1,3] (its step is computed from uniqueKv[0] = 0 instead of
uniqueKv[2] = 3, and the emitted value uses the interval counter i instead of
the step counter j), then appends the final knot 3. -/
theorem equallyTessellate_params_eval :
    equallyTessellateParams [0,0,1,3,3] =
      (List.replicate 100 (0:ℚ) ++ List.replicate 100 (99/100 : ℚ)) ++ [3] := by
  have hd : ([0,0,1,3,3] : List ℚ).destutter (· ≠ ·) = [0,1,3] := by rfl
  unfold equallyTessellateParams
  rw [hd]
  norm_num [foldl_append_const, List.foldl_cons, List.foldl_nil,
    show List.range 2 = [0,1] from rfl,
    show ([0,1,3] : List ℚ).getD 0 0 = 0 from rfl,
    show ([0,1,3] : List ℚ).getD 1 0 = 1 from rfl,
    show ∀ d : ℚ, igetD ([0,1,3] : List ℚ) (-1) d = d from fun d => rfl,
    show ∀ d : ℚ, igetD ([0,1,3] : List ℚ) 0 d = 0 from fun d => rfl,
    show ([0,0,1,3,3] : List ℚ).getD 4 0 = 3 from rfl]

/-- The interior reconstruction loop of one removal attempt
(NurbsCurve.cpp lines 368-381): while (j - i >= t) rebuild temp[ii] from the
left and temp[jj] from the right.  The state is (i, j, ii, jj, temp); the
fuel argument only bounds the recursion and is always supplied large enough
for the loop to reach its exit condition (each iteration decreases j - i
by 2). -/
def removeKnotWhile (knotVector : List ℚ) (controlPoints : List (XYZW ℚ)) (u : ℚ)
    (order t : ℤ) : ℕ → ℤ × ℤ × ℤ × ℤ × List (XYZW ℚ) → ℤ × ℤ × ℤ × ℤ × List (XYZW ℚ)
  | 0, st => st
  | fuel + 1, (i, j, ii, jj, temp) =>
      if j - i ≥ t then
        let alphai := (u - igetD knotVector i 0) /
            (igetD knotVector (i + order + t) 0 - igetD knotVector i 0)
        let alphaj := (u - igetD knotVector (j - t) 0) /
            (igetD knotVector (j + order) 0 - igetD knotVector (j - t) 0)
        let temp1 := iset temp ii
            (pdiv (igetD controlPoints i 0 - (1 - alphai) • igetD temp (ii - 1) 0) alphai)
        let temp2 := iset temp1 jj
            (pdiv (igetD controlPoints j 0 - alphaj • igetD temp1 (jj + 1) 0) (1 - alphaj))
        removeKnotWhile knotVector controlPoints u order t fuel (i + 1, j - 1, ii + 1, jj - 1, temp2)
      else (i, j, ii, jj, temp)

/-- The commit loop of one removal attempt (NurbsCurve.cpp lines 404-410):
while (j - i > t) copy the reconstructed points into the output buffer. -/
def removeKnotCommit (temp : List (XYZW ℚ)) (off t : ℤ) :
    ℕ → ℤ × ℤ × List (XYZW ℚ) → List (XYZW ℚ)
  | 0, st => st.2.2
  | fuel + 1, (i, j, cp) =>
      if j - i > t then
        let cp1 := iset cp i (igetD temp (i - off) 0)
        let cp2 := iset cp1 j (igetD temp (j - off) 0)
        removeKnotCommit temp off t fuel (i + 1, j - 1, cp2)
      else cp

/-- One iteration t of the removal loop of NurbsCurve::RemoveKnot
(NurbsCurve.cpp lines 357-414) on the state (first, last, updated buffer).
The deviation checks compare squared distances against tol^2 (see distSq);
note that in the even-window branch the source blends with (1.0 * alphai)
where the standard algorithm uses (1.0 - alphai), and that the loop guard at
line 368 is j - i >= t where the standard algorithm uses j - i > t, so in an
odd window the last slot is written from both sides and the final check at
line 385 compares temp[ii - 1] with temp[jj + 1] when these have become the
same element. -/
def removeKnotAttempt (degree : ℕ) (knotVector : List ℚ) (controlPoints : List (XYZW ℚ))
    (u : ℚ) (tol : ℚ) (t : ℤ) (st : ℤ × ℤ × List (XYZW ℚ)) : ℤ × ℤ × List (XYZW ℚ) :=
  let first := st.1
  let last := st.2.1
  let updated := st.2.2
  let order : ℤ := (degree : ℤ) + 1
  let off := first - 1
  let temp0 := resizeTo ([] : List (XYZW ℚ)) (2 * degree + 1) 0
  let temp1 := iset temp0 0 (igetD controlPoints off 0)
  let temp2 := iset temp1 (last + 1 - off) (igetD controlPoints (last + 1) 0)
  let w := removeKnotWhile knotVector controlPoints u order t
      ((last - first + 2).toNat) (first, last, 1, last - off, temp2)
  let i := w.1
  let j := w.2.1
  let ii := w.2.2.1
  let jj := w.2.2.2.1
  let temp := w.2.2.2.2
  let remflag :=
    if j - i < t then
      decide (distSq (igetD temp (ii - 1) 0) (igetD temp (jj + 1) 0) ≤ tol * tol)
    else
      let alphai := (u - igetD knotVector i 0) /
          (igetD knotVector (i + order + t) 0 - igetD knotVector i 0)
      decide (distSq (igetD controlPoints i 0)
          (alphai • igetD temp (ii + t + 1) 0 + (1 * alphai) • igetD temp (ii - 1) 0) ≤ tol * tol)
  let updated2 :=
    if remflag then
      removeKnotCommit temp off t ((last - first + 2).toNat) (first, last, updated)
    else updated
  (first - 1, last + 1, updated2)

/-- NurbsCurve::RemoveKnot after its VALIDATE_ARGUMENT guards
(NurbsCurve.cpp lines 332-445).  The data-dependent tolerance is computed by
the missing collaborator ValidationUtils::ComputeCurveModifyTolerance, so it
is received here as the parameter tol.  The knot buffer is trimmed by the
full requested count up front (lines 342-351); the attempt loop runs all
times iterations with no break, so the loop counter t equals times at line
416 and the guard if (t == 0) never fires for times >= 1; the final
compaction (lines 421-444) copies from the original controlPoints and pops
times slots. -/
def RemoveKnot (degree : ℕ) (knotVector : List ℚ) (controlPoints : List (XYZW ℚ))
    (u : ℚ) (times : ℤ) (tol : ℚ) : List ℚ × List (XYZW ℚ) :=
  let n : ℤ := (controlPoints.length : ℤ) - 1
  let s : ℤ := getKnotMultiplicity knotVector u
  let r : ℤ := getKnotSpanIndex degree knotVector u
  let first := r - degree
  let last := r - s
  let m := n + degree + 1
  let rest1 := (intsFromTo (r + 1) m).foldl
      (fun kv k => iset kv (k - times) (igetD kv k 0)) knotVector
  let restKnotVector := rest1.take (rest1.length - times.toNat)
  let st := (intsFromTo 0 (times - 1)).foldl
      (fun st t => removeKnotAttempt degree knotVector controlPoints u tol t st)
      (first, last, controlPoints)
  let t := times
  if t = 0 then (restKnotVector, st.2.2)
  else
    let j0 := Int.tdiv (2 * r - s - degree) 2
    let ij := (intsFromTo 1 (t - 1)).foldl
        (fun (ij : ℤ × ℤ) k => if k % 2 = 1 then (ij.1 + 1, ij.2) else (ij.1, ij.2 - 1))
        (j0, j0)
    let upd2 := ((intsFromTo (ij.1 + 1) n).foldl
        (fun (acc : ℤ × List (XYZW ℚ)) k => (acc.1 + 1, iset acc.2 acc.1 (igetD controlPoints k 0)))
        (ij.2, st.2.2)).2
    (restKnotVector, upd2.take (upd2.length - t.toNat))

set_option maxHeartbeats 1600000 in
/-- C3 (counter-evidence): on the degree-1 curve U = [0,0,1,2,2] with control
points (0,0,0,1), (5,7,0,1), (2,0,0,1), removing the knot 1 once is committed
for EVERY tolerance value: the reconstruction loop guard j - i >= t runs one
iteration too many, so the deviation check compares the buffer entry temp[1]
with itself (distance 0), although the two one-sided reconstructions
2*P1 - P0 = (10,14,0,1) and 2*P1 - P2 = (8,14,0,1) differ.  Both buffers are
trimmed and the interior control point is dropped regardless of the geometry,
and the function returns no removal count. -/
theorem removeKnot_commits_for_every_tolerance (tol : ℚ) :
    RemoveKnot 1 [0,0,1,2,2] [![0,0,0,1], ![5,7,0,1], ![2,0,0,1]] 1 1 tol =
      ([0,0,2,2], [![0,0,0,1], ![2,0,0,1]]) := by
  have h0 : (0:ℚ) ≤ tol * tol := mul_self_nonneg tol
  unfold RemoveKnot removeKnotAttempt
  norm_num [removeKnotWhile, removeKnotCommit, igetD, iset, resizeTo,
    show getKnotMultiplicity ([0,0,1,2,2] : List ℚ) 1 = 1 from rfl,
    show getKnotSpanIndex 1 ([0,0,1,2,2] : List ℚ) 1 = 2 from rfl,
    show intsFromTo 3 4 = [3,4] from rfl,
    show intsFromTo 0 0 = [0] from rfl,
    show intsFromTo 1 0 = [] from rfl,
    show intsFromTo 2 2 = [2] from rfl,
    distSq, pdiv, Fin.sum_univ_four, List.getD, h0]
  exact ⟨by rfl, by rfl⟩

/-- Constants::DoubleEpsilon, the coordinate tolerance 1e-10. -/
noncomputable def epsReal : ℝ := 1 / 10000000000

/-- Modelled from the spec: MathUtils::IsLessThanOrEqual, a scalar comparison
loosened by the coordinate tolerance epsilon = 1e-10. -/
def isLessThanOrEqual (a b : ℝ) : Prop := a ≤ b + epsReal

noncomputable instance (a b : ℝ) : Decidable (isLessThanOrEqual a b) := by
  unfold isLessThanOrEqual; infer_instance

/-- Modelled from the spec: XYZ::Normalize for real 3D vectors. -/
noncomputable def normalizeXYZ (v : XYZ ℝ) : XYZ ℝ :=
  fun j => v j / Real.sqrt (sqLenXYZ v)

/-- The segment-count selection of CreateArc (NurbsCurve.cpp lines
1021-1040): 1, 2, 3 or 4 segments depending on the subtended angle. -/
noncomputable def narcsOf (theta : ℝ) : ℕ :=
  if isLessThanOrEqual theta (Real.pi / 2) then 1
  else if isLessThanOrEqual theta Real.pi then 2
  else if isLessThanOrEqual theta (3 * Real.pi / 2) then 3
  else 4

/-- The body of the segment loop of CreateArc (NurbsCurve.cpp lines
1054-1071) on the state (P0, T0, index, angle, controlPoints); none records
that Intersection::ComputeRays reported a non-intersecting pair, upon which
CreateArc returns false. -/
noncomputable def createArcStep
    (computeRays : XYZ ℝ → XYZ ℝ → XYZ ℝ → XYZ ℝ → Option (ℝ × ℝ × XYZ ℝ))
    (center nX nY : XYZ ℝ) (xRadius yRadius dtheta w1 : ℝ)
    (st : Option (XYZ ℝ × XYZ ℝ × ℕ × ℝ × List (XYZW ℝ))) (_i : ℕ) :
    Option (XYZ ℝ × XYZ ℝ × ℕ × ℝ × List (XYZW ℝ)) :=
  match st with
  | none => none
  | some s =>
      let index := s.2.2.1
      let angle := s.2.2.2.1 + dtheta
      let P2 := center + (xRadius * Real.cos angle) • nX + (yRadius * Real.sin angle) • nY
      let cps2 := s.2.2.2.2.set (index + 2) (mkXYZW P2 1)
      let T2 := (-Real.sin angle) • nX + (Real.cos angle) • nY
      match computeRays s.1 s.2.1 P2 T2 with
      | none => none
      | some pr => some (P2, T2, index + 2, angle, cps2.set (index + 1) (mkXYZW pr.2.2 w1))

/-- NurbsCurve::CreateArc (NurbsCurve.cpp lines 1010-1097).  The ray-ray
intersection collaborator Intersection::ComputeRays (external per spec
section 6) is the parameter computeRays.  The output buffers are resized to
n = 2 * narcs control points and n + 3 knots; the segment loop runs for
i = 1 .. narcs - 1; afterwards three 0 knots and three 1 knots are written at
indices 0..2 and j..j+2 with j = 2 * narcs + 1 (for narcs = 4 the write at
index 11 falls outside the resized buffer, which is undefined behaviour in
the source and a no-op here), and the interior knots are set per the switch;
in the narcs = 3 case the source computes 1 / 3 and 2 / 3 in int arithmetic,
which is 0.  On success it returns degree 2 with the two buffers. -/
noncomputable def CreateArc
    (computeRays : XYZ ℝ → XYZ ℝ → XYZ ℝ → XYZ ℝ → Option (ℝ × ℝ × XYZ ℝ))
    (center xAxis yAxis : XYZ ℝ) (startRad endRad xRadius yRadius : ℝ) :
    Option (ℕ × List ℝ × List (XYZW ℝ)) :=
  let nX := normalizeXYZ xAxis
  let nY := normalizeXYZ yAxis
  let endRad2 := if endRad < startRad then 2 * Real.pi + startRad else endRad
  let theta := endRad2 - startRad
  let narcs := narcsOf theta
  let dtheta := theta / (narcs : ℝ)
  let n := 2 * narcs
  let knotVector0 := resizeTo ([] : List ℝ) (n + 3) 0
  let controlPoints0 := resizeTo ([] : List (XYZW ℝ)) n 0
  let w1 := Real.cos (dtheta / 2)
  let P0 := center + (xRadius * Real.cos startRad) • nX + (yRadius * Real.sin startRad) • nY
  let T0 := (-Real.sin startRad) • nX + (Real.cos startRad) • nY
  let st := (List.range' 1 (narcs - 1)).foldl
      (createArcStep computeRays center nX nY xRadius yRadius dtheta w1)
      (some (P0, T0, 0, startRad, controlPoints0.set 0 (mkXYZW P0 1)))
  match st with
  | none => none
  | some stv =>
      let j := 2 * narcs + 1
      let kv1 := (List.range 3).foldl (fun kv i => (kv.set i 0).set (i + j) 1) knotVector0
      let kv2 :=
        if narcs = 2 then (kv1.set 3 (1/2)).set 4 (1/2)
        else if narcs = 3 then
          (((kv1.set 3 (((1 / 3 : ℤ) : ℝ))).set 4 (((1 / 3 : ℤ) : ℝ))).set 5
              (((2 / 3 : ℤ) : ℝ))).set 6 (((2 / 3 : ℤ) : ℝ))
        else if narcs = 4 then
          (((((kv1.set 3 (1/4)).set 4 (1/4)).set 5 (1/2)).set 6 (1/2)).set 7 (3/4)).set 8 (3/4)
        else kv1
      some (2, kv2, stv.2.2.2.2)

theorem foldl_some_of_step {σ ι : Type*} (step : Option σ → ι → Option σ) (meas : σ → ℕ)
    (h : ∀ s i, ∃ s2, step (some s) i = some s2 ∧ meas s2 = meas s) :
    ∀ (lst : List ι) (s : σ), ∃ s2, lst.foldl step (some s) = some s2 ∧ meas s2 = meas s := by
  intro lst
  induction lst with
  | nil => intro s; exact ⟨s, rfl, rfl⟩
  | cons x xs ih =>
      intro s
      obtain ⟨s1, hs1, hm1⟩ := h s x
      obtain ⟨s2, hs2, hm2⟩ := ih s1
      exact ⟨s2, by rw [List.foldl_cons, hs1]; exact hs2, by rw [hm2, hm1]⟩

theorem createArcStep_preserves
    (computeRays : XYZ ℝ → XYZ ℝ → XYZ ℝ → XYZ ℝ → Option (ℝ × ℝ × XYZ ℝ))
    (hRays : ∀ a b c d, (computeRays a b c d).isSome)
    (center nX nY : XYZ ℝ) (xRadius yRadius dtheta w1 : ℝ)
    (s : XYZ ℝ × XYZ ℝ × ℕ × ℝ × List (XYZW ℝ)) (i : ℕ) :
    ∃ s2, createArcStep computeRays center nX nY xRadius yRadius dtheta w1 (some s) i = some s2 ∧
      s2.2.2.2.2.length = s.2.2.2.2.length := by
  obtain ⟨pr, hpr⟩ := Option.isSome_iff_exists.mp (hRays s.1 s.2.1
    (center + (xRadius * Real.cos (s.2.2.2.1 + dtheta)) • nX +
      (yRadius * Real.sin (s.2.2.2.1 + dtheta)) • nY)
    ((-Real.sin (s.2.2.2.1 + dtheta)) • nX + (Real.cos (s.2.2.2.1 + dtheta)) • nY))
  refine ⟨((center + (xRadius * Real.cos (s.2.2.2.1 + dtheta)) • nX +
      (yRadius * Real.sin (s.2.2.2.1 + dtheta)) • nY),
    ((-Real.sin (s.2.2.2.1 + dtheta)) • nX + (Real.cos (s.2.2.2.1 + dtheta)) • nY),
    s.2.2.1 + 2, s.2.2.2.1 + dtheta,
    ((s.2.2.2.2.set (s.2.2.1 + 2)
        (mkXYZW (center + (xRadius * Real.cos (s.2.2.2.1 + dtheta)) • nX +
          (yRadius * Real.sin (s.2.2.2.1 + dtheta)) • nY) 1)).set (s.2.2.1 + 1)
        (mkXYZW pr.2.2 w1))), ?_, ?_⟩
  · simp only [createArcStep]
    rw [hpr]
  · simp [List.length_set]

theorem narcsOf_two_pi : narcsOf (2 * Real.pi) = 4 := by
  have hpi : (3.141592 : ℝ) < Real.pi := Real.pi_gt_d6
  have h1 : ¬ isLessThanOrEqual (2 * Real.pi) (Real.pi / 2) := by
    unfold isLessThanOrEqual epsReal; push_neg; nlinarith
  have h2 : ¬ isLessThanOrEqual (2 * Real.pi) Real.pi := by
    unfold isLessThanOrEqual epsReal; push_neg; nlinarith
  have h3 : ¬ isLessThanOrEqual (2 * Real.pi) (3 * Real.pi / 2) := by
    unfold isLessThanOrEqual epsReal; push_neg; nlinarith
  unfold narcsOf
  rw [if_neg h1, if_neg h2, if_neg h3]

/-- C2 (evaluation of the code at the S3 circle): CreateArc with center
(0,0,0), axes (1,0,0) and (0,1,0), radii 1, angles 0 to 2*pi chooses
narcs = 4 but allocates only 2 * narcs = 8 control points and 2 * narcs + 3 =
11 knots, loops only over segments 1..narcs-1 so the fourth segment is never
built, and produces the knot vector [0,0,0,1/4,1/4,1/2,1/2,3/4,3/4,1,1]
(the final 1.0 write at index 11 falls outside the buffer); the S3
expectation is 9 control points and the 12-knot vector ending in 1,1,1. -/
theorem createArc_circle_sizes
    (computeRays : XYZ ℝ → XYZ ℝ → XYZ ℝ → XYZ ℝ → Option (ℝ × ℝ × XYZ ℝ))
    (hRays : ∀ a b c d, (computeRays a b c d).isSome) :
    ∃ kv cps,
      CreateArc computeRays ![0,0,0] ![1,0,0] ![0,1,0] 0 (2 * Real.pi) 1 1 =
          some (2, kv, cps) ∧
        kv.length = 11 ∧ cps.length = 8 ∧
        kv = [0, 0, 0, 1/4, 1/4, 1/2, 1/2, 3/4, 3/4, 1, 1] := by
  have hneg : ¬ ((2 * Real.pi) < (0:ℝ)) := not_lt.mpr (by positivity)
  simp only [CreateArc, hneg, if_false, sub_zero, narcsOf_two_pi,
    show List.range' 1 (4 - 1) = [1, 2, 3] from rfl]
  obtain ⟨s2, hs2, hlen⟩ := foldl_some_of_step _ (fun s => s.2.2.2.2.length)
    (fun s i => createArcStep_preserves computeRays hRays _ _ _ _ _ _ _ s i) [1, 2, 3] _
  rw [hs2]
  refine ⟨_, s2.2.2.2.2, rfl, by rfl, ?_, by rfl⟩
  rw [hlen]
  rfl

/-- Witness for createArc_circle_sizes with a total ray-intersection oracle
that always reports an intersection at the origin. -/
theorem createArc_circle_sizes_witness :
    ∃ kv cps,
      CreateArc (fun _ _ _ _ => some (0, 0, ![0,0,0])) ![0,0,0] ![1,0,0] ![0,1,0] 0
          (2 * Real.pi) 1 1 = some (2, kv, cps) ∧
        kv.length = 11 ∧ cps.length = 8 ∧
        kv = [0, 0, 0, 1/4, 1/4, 1/2, 1/2, 3/4, 3/4, 1, 1] :=
  createArc_circle_sizes (fun _ _ _ _ => some (0, 0, ![0,0,0])) (fun _ _ _ _ => rfl)

/-- Modelled from the spec: XYZ::Distance, the Euclidean distance. -/
noncomputable def distXYZ (a b : XYZ ℝ) : ℝ := Real.sqrt (distSq a b)

/-- Modelled from the spec: Interpolation::GetChordParameterization,
chord-length parameters with u_0 = 0, increments |Q_i - Q_{i-1}| / L for the
total chord length L, and last parameter 1. -/
noncomputable def GetChordParameterization (throughPoints : List (XYZ ℝ)) : List ℝ :=
  let n := throughPoints.length - 1
  let L := ∑ i ∈ Finset.range n, distXYZ (throughPoints.getD (i + 1) 0) (throughPoints.getD i 0)
  (List.range (n + 1)).map fun i =>
    if i = n then 1
    else (∑ k ∈ Finset.range i,
        distXYZ (throughPoints.getD (k + 1) 0) (throughPoints.getD k 0)) / L

/-- Modelled from the spec: Interpolation::ComputeKnotVector, the clamped
knot vector of size n + degree + 2 built by averaging: degree+1 zeros, the
interior knots U[j+p] = (1/p) * sum of u_j..u_{j+p-1}, and degree+1 ones. -/
noncomputable def ComputeKnotVector (degree pointsCount : ℕ) (uk : List ℝ) : List ℝ :=
  let n := pointsCount - 1
  (List.range (n + degree + 2)).map fun j =>
    if j ≤ degree then 0
    else if n + 1 ≤ j then 1
    else (∑ i ∈ Finset.Ico (j - degree) j, uk.getD i 0) / (degree : ℝ)

/-- Modelled from the spec: Interpolation::MakeInterpolationMatrix, the
size-by-size matrix N[i][j] = N_{j,p}(u_i). -/
noncomputable def MakeInterpolationMatrix (degree size : ℕ) (uk U : List ℝ) :
    Fin size → Fin size → ℝ :=
  fun i j => basisN U j degree (uk.getD i 0)

/-- Modelled from the spec: Interpolation::ComputerControlPointsByLUDecomposition,
the LU-decomposition solve of the square system A X = B with one XYZ column
per coordinate; modelled as the exact linear solve by matrix inversion. -/
noncomputable def ComputerControlPointsByLUDecomposition {n : ℕ}
    (A : Fin n → Fin n → ℝ) (b : List (XYZ ℝ)) : List (XYZ ℝ) :=
  List.ofFn fun i : Fin n => fun c : Fin 3 =>
    (Matrix.of A)⁻¹.mulVec (fun k : Fin n => b.getD k 0 c) i

/-- A recoverable precondition failure raised by a VALIDATE_ARGUMENT guard. -/
inductive PrecondFailure where
  | argumentError
deriving DecidableEq

/-- NurbsCurve::GlobalInterpolation (NurbsCurve.cpp lines 1249-1264).  Unlike
the other public curve operations it contains no VALIDATE_ARGUMENT guard, so
no input is ever rejected: it computes the chord parameterization, the
averaged knot vector and the LU solve (the Interpolation collaborators are
modelled from the spec) and then writes controlPoints[i] for
i = 0..size-1 into the caller's buffer, which it never resizes (a write
beyond the caller's buffer is undefined behaviour in the source and a no-op
here).  The result is the computed knot vector together with the post-call
state of the caller's control-point buffer. -/
noncomputable def GlobalInterpolation (degree : ℕ) (throughPoints : List (XYZ ℝ))
    (controlPoints0 : List (XYZW ℝ)) :
    Except PrecondFailure (List ℝ × List (XYZW ℝ)) :=
  let size := throughPoints.length
  let uk := GetChordParameterization throughPoints
  let knotVector := ComputeKnotVector degree size uk
  let A := MakeInterpolationMatrix degree size uk knotVector
  let tempControlPoints := ComputerControlPointsByLUDecomposition A throughPoints
  let controlPoints := (List.range size).foldl
      (fun cps i => cps.set i (mkXYZW (tempControlPoints.getD i 0) 1)) controlPoints0
  .ok (knotVector, controlPoints)

/-- The VALIDATE_ARGUMENT guards of NurbsCurve::InsertKnot (NurbsCurve.cpp
lines 78-83), which run before any buffer is resized or written: on the first
violated precondition the call raises a recoverable failure and the caller's
two output buffers keep their previous contents, returned here as the
post-call state. -/
def InsertKnotChecked (degree : ℤ) (knotVector : List ℚ) (controlPoints : List (XYZW ℚ))
    (u : ℚ) (times : ℤ) (outKv : List ℚ) (outCp : List (XYZW ℚ)) :
    Except PrecondFailure Unit × List ℚ × List (XYZW ℚ) :=
  if ¬ (0 < degree) then (.error .argumentError, outKv, outCp)
  else if ¬ (0 < knotVector.length) then (.error .argumentError, outKv, outCp)
  else if ¬ isValidKnotVector knotVector then (.error .argumentError, outKv, outCp)
  else if ¬ (0 < controlPoints.length) then (.error .argumentError, outKv, outCp)
  else if ¬ isValidNurbs degree.toNat knotVector.length controlPoints.length then
    (.error .argumentError, outKv, outCp)
  else if ¬ (0 < times) then (.error .argumentError, outKv, outCp)
  else
    let r := InsertKnot degree.toNat knotVector controlPoints u times outKv outCp
    (.ok (), r.1, r.2)

/-- C6 amended: an operation that begins with VALIDATE_ARGUMENT guards (such
as InsertKnot, the operation the claim cites) fails immediately on every
precondition violation and no element of the caller's output buffers is
written; but not every public curve operation validates its input:
GlobalInterpolation checks nothing and never fails (see
globalInterpolation_no_precondition_failure). -/
theorem insertKnotChecked_fails_before_writes (degree : ℤ) (knotVector : List ℚ)
    (controlPoints : List (XYZW ℚ)) (u : ℚ) (times : ℤ)
    (outKv : List ℚ) (outCp : List (XYZW ℚ))
    (hbad : ¬ (0 < degree ∧ 0 < knotVector.length ∧ isValidKnotVector knotVector ∧
      0 < controlPoints.length ∧
      isValidNurbs degree.toNat knotVector.length controlPoints.length ∧ 0 < times)) :
    InsertKnotChecked degree knotVector controlPoints u times outKv outCp =
      (.error .argumentError, outKv, outCp) := by
  unfold InsertKnotChecked
  split_ifs with h1 h2 h3 h4 h5 h6
  all_goals try rfl
  exact absurd ⟨h1, h2, h3, h4, h5, h6⟩ hbad

/-- Witness for insertKnotChecked_fails_before_writes: degree 0 is rejected
and the caller's buffers [5] and [] come back unchanged. -/
theorem insertKnotChecked_fails_before_writes_witness :
    InsertKnotChecked 0 [0, 1] [0] 0 1 [5] [] =
      (.error .argumentError, [5], ([] : List (XYZW ℚ))) :=
  insertKnotChecked_fails_before_writes 0 [0, 1] [0] 0 1 [5] [] (by decide)

/-- C6 (counter-evidence): GlobalInterpolation is a public curve operation,
and interpolating a single through-point with degree 3 violates the
precondition of at least degree + 1 points (spec section 7), yet the call
raises no failure: it returns Except.ok. -/
theorem globalInterpolation_no_precondition_failure :
    (1 < 3 + 1) ∧ ∃ out, GlobalInterpolation 3 [![0, 0, 0]] [] = Except.ok out :=
  ⟨by norm_num, ⟨_, rfl⟩⟩

/-- The indices written by the output loop of GlobalInterpolation
(NurbsCurve.cpp lines 1260-1263): controlPoints[i] for i = 0..size-1 with
size = |throughPoints|; the function never resizes the caller's buffer before
writing. -/
def globalInterpolationWriteIndices (throughPoints : List (XYZ ℝ)) : List ℕ :=
  List.range throughPoints.length

/-- C10 (counterexample): with a single through-point and an empty caller
buffer, GlobalInterpolation writes at index 0, which is not within the
buffer's bounds. -/
theorem globalInterpolation_write_out_of_bounds :
    0 ∈ globalInterpolationWriteIndices [![0, 0, 0]] ∧
      ¬ (0 < ([] : List (XYZW ℝ)).length) := by
  exact ⟨by simp [globalInterpolationWriteIndices], by simp⟩

/-- C10 amended: every write GlobalInterpolation performs is at an index in
0..|Q|-1, and it is within the caller's buffer bounds provided the caller
supplied a buffer of at least |Q| elements; since the function never resizes
the buffer, that hypothesis on the caller is exactly what in-bounds writing
requires. -/
theorem globalInterpolation_writes_in_bounds (throughPoints : List (XYZ ℝ))
    (buffer : List (XYZW ℝ)) (h : throughPoints.length ≤ buffer.length) :
    ∀ i ∈ globalInterpolationWriteIndices throughPoints, i < buffer.length := by
  intro i hi
  unfold globalInterpolationWriteIndices at hi
  have := List.mem_range.mp hi
  omega

/-- Witness for globalInterpolation_writes_in_bounds: one through-point and a
one-slot caller buffer. -/
theorem globalInterpolation_writes_in_bounds_witness :
    (0 : ℕ) < ([0] : List (XYZW ℝ)).length :=
  globalInterpolation_writes_in_bounds [![0, 0, 0]] [0] (by decide) 0 (by decide)

/-! Development for the knot-insertion preservation claim: list access
infrastructure for a single knot insertion of u after index k. -/

/-- The knot vector with one copy of u inserted after index k. -/
def oneInsert (U : List ℚ) (k : ℕ) (u : ℚ) : List ℚ :=
  U.take (k + 1) ++ u :: U.drop (k + 1)

theorem length_oneInsert (U : List ℚ) (k : ℕ) (u : ℚ) (hk : k + 1 ≤ U.length) :
    (oneInsert U k u).length = U.length + 1 := by
  simp [oneInsert]
  omega

theorem getD_oneInsert_left (U : List ℚ) (k : ℕ) (u : ℚ) (j : ℕ)
    (hk : k + 1 ≤ U.length) (hj : j ≤ k) :
    (oneInsert U k u).getD j 0 = U.getD j 0 := by
  unfold oneInsert
  rw [List.getD_append _ _ _ _ (by simp; omega)]
  simp only [List.getD_eq_getElem?_getD, List.getElem?_take]
  rw [if_pos (by omega)]

theorem getD_oneInsert_mid (U : List ℚ) (k : ℕ) (u : ℚ)
    (hk : k + 1 ≤ U.length) :
    (oneInsert U k u).getD (k + 1) 0 = u := by
  unfold oneInsert
  rw [List.getD_append_right _ _ _ _ (by rw [List.length_take]; omega)]
  have h : k + 1 - (U.take (k + 1)).length = 0 := by
    rw [List.length_take]; omega
  rw [h]
  rfl

theorem getD_oneInsert_right (U : List ℚ) (k : ℕ) (u : ℚ) (j : ℕ)
    (hk : k + 1 ≤ U.length) (hj : k + 1 ≤ j) :
    (oneInsert U k u).getD (j + 1) 0 = U.getD j 0 := by
  unfold oneInsert
  rw [List.getD_append_right _ _ _ _ (by rw [List.length_take]; omega)]
  have h : j + 1 - (U.take (k + 1)).length = (j - k - 1) + 1 := by
    rw [List.length_take]; omega
  rw [h, List.getD_cons_succ]
  simp only [List.getD_eq_getElem?_getD, List.getElem?_drop]
  congr 2
  omega

theorem getD_mono (U : List ℚ) (hval : isValidKnotVector U) (a b : ℕ)
    (hab : a ≤ b) (hb : b < U.length) : U.getD a 0 ≤ U.getD b 0 := by
  unfold isValidKnotVector at hval
  rw [List.chain'_iff_pairwise] at hval
  have ha : a < U.length := lt_of_le_of_lt hab hb
  rw [List.getD_eq_getElem _ _ ha, List.getD_eq_getElem _ _ hb]
  rcases Nat.eq_or_lt_of_le hab with h | h
  · subst h; rfl
  · exact List.pairwise_iff_getElem.mp hval a b ha hb h

/-- The Boehm insertion coefficient at degree p for inserting the value u
whose span index in U is k: 1 left of the affected window, 0 right of it,
and (u - U_i) / (U_{i+p} - U_i) inside. -/
def insCoeff (U : List ℚ) (u : ℚ) (k p i : ℕ) : ℚ :=
  if i + p ≤ k then 1
  else if k + 1 ≤ i then 0
  else (u - U.getD i 0) / (U.getD (i + p) 0 - U.getD i 0)

/-- A B-spline basis function over a degenerate (constant) stretch of knots
vanishes identically. -/
theorem basisN_zero_of_const (V : List ℚ) (i p : ℕ) (t : ℚ)
    (h : ∀ j, i ≤ j → j ≤ i + p + 1 → V.getD j 0 = V.getD i 0) :
    basisN V i p t = 0 := by
  cases p with
  | zero =>
      unfold basisN
      rw [if_neg]
      rintro ⟨h1, h2⟩
      rw [h (i + 1) (by omega) (by omega)] at h2
      exact absurd h1 (not_le.mpr h2)
  | succ q =>
      unfold basisN
      have h1 : V.getD (i + q + 1) 0 - V.getD i 0 = 0 := by
        rw [h (i + q + 1) (by omega) (by omega)]; ring
      have h2 : V.getD (i + q + 2) 0 - V.getD (i + 1) 0 = 0 := by
        rw [h (i + q + 2) (by omega) (by omega), h (i + 1) (by omega) (by omega)]; ring
      rw [h1, h2]
      simp

theorem insert_D1 (U : List ℚ) (u : ℚ) (k q i : ℕ) (t : ℚ)
    (hval : isValidKnotVector U) (hk1 : k + 1 < U.length)
    (hul : U.getD k 0 ≤ u) (hur : u < U.getD (k + 1) 0)
    (hrange : i + q + 2 < U.length) :
    (t - U.getD i 0) / (U.getD (i + q + 1) 0 - U.getD i 0) * insCoeff U u k q i *
        basisN (oneInsert U k u) i q t =
      insCoeff U u k (q + 1) i *
        ((t - (oneInsert U k u).getD i 0) /
          ((oneInsert U k u).getD (i + q + 1) 0 - (oneInsert U k u).getD i 0)) *
        basisN (oneInsert U k u) i q t := by
  have hkU : k + 1 ≤ U.length := le_of_lt hk1
  by_cases hA : k + 1 ≤ i
  · have hb : insCoeff U u k q i = 0 := by
      unfold insCoeff; rw [if_neg (by omega), if_pos (by omega)]
    have ha : insCoeff U u k (q + 1) i = 0 := by
      unfold insCoeff; rw [if_neg (by omega), if_pos (by omega)]
    rw [ha, hb]; ring
  · have hik : i ≤ k := by omega
    have hUi : (oneInsert U k u).getD i 0 = U.getD i 0 :=
      getD_oneInsert_left U k u i hkU hik
    by_cases hB : i + q + 1 ≤ k
    · have hb : insCoeff U u k q i = 1 := by
        unfold insCoeff; rw [if_pos (by omega)]
      have ha : insCoeff U u k (q + 1) i = 1 := by
        unfold insCoeff; rw [if_pos (by omega)]
      have hUq : (oneInsert U k u).getD (i + q + 1) 0 = U.getD (i + q + 1) 0 :=
        getD_oneInsert_left U k u (i + q + 1) hkU (by omega)
      rw [ha, hb, hUi, hUq]
      ring
    · by_cases hC : i + q + 1 = k + 1
      · have hb : insCoeff U u k q i = 1 := by
          unfold insCoeff; rw [if_pos (by omega)]
        have ha : insCoeff U u k (q + 1) i =
            (u - U.getD i 0) / (U.getD (i + q + 1) 0 - U.getD i 0) := by
          unfold insCoeff
          rw [if_neg (by omega), if_neg (by omega),
            show i + (q + 1) = i + q + 1 from rfl]
        have hUq : (oneInsert U k u).getD (i + q + 1) 0 = u := by
          rw [show i + q + 1 = k + 1 from hC]
          exact getD_oneInsert_mid U k u hkU
        by_cases hdeg : u = U.getD i 0
        · have hz : basisN (oneInsert U k u) i q t = 0 := by
            apply basisN_zero_of_const
            intro j hj1 hj2
            rw [hUi, ← hdeg]
            rcases le_or_lt j k with hjk | hjk
            · rw [getD_oneInsert_left U k u j hkU hjk]
              have m1 : U.getD i 0 ≤ U.getD j 0 := getD_mono U hval i j hj1 (by omega)
              have m2 : U.getD j 0 ≤ U.getD k 0 := getD_mono U hval j k hjk (by omega)
              rw [← hdeg] at m1
              linarith
            · have hj3 : j = k + 1 := by omega
              rw [hj3, getD_oneInsert_mid U k u hkU]
          rw [hz]; ring
        · have hd2 : u - U.getD i 0 ≠ 0 := sub_ne_zero.mpr hdeg
          rw [ha, hb, hUi, hUq]
          have key : (t - U.getD i 0) / (U.getD (i + q + 1) 0 - U.getD i 0) * 1 =
              (u - U.getD i 0) / (U.getD (i + q + 1) 0 - U.getD i 0) *
                ((t - U.getD i 0) / (u - U.getD i 0)) := by
            rw [mul_one, div_mul_div_comm, mul_comm (u - U.getD i 0) (t - U.getD i 0),
              mul_div_mul_right _ _ hd2]
          rw [key]
      · have hb : insCoeff U u k q i =
            (u - U.getD i 0) / (U.getD (i + q) 0 - U.getD i 0) := by
          unfold insCoeff
          rw [if_neg (by omega), if_neg (by omega)]
        have ha : insCoeff U u k (q + 1) i =
            (u - U.getD i 0) / (U.getD (i + q + 1) 0 - U.getD i 0) := by
          unfold insCoeff
          rw [if_neg (by omega), if_neg (by omega),
            show i + (q + 1) = i + q + 1 from rfl]
        have hUq : (oneInsert U k u).getD (i + q + 1) 0 = U.getD (i + q) 0 :=
          getD_oneInsert_right U k u (i + q) hkU (by omega)
        rw [ha, hb, hUi, hUq]
        ring

theorem insert_D2 (U : List ℚ) (u : ℚ) (k q i : ℕ) (t : ℚ)
    (hval : isValidKnotVector U) (hk1 : k + 1 < U.length)
    (hul : U.getD k 0 ≤ u) (hur : u < U.getD (k + 1) 0)
    (hrange : i + q + 2 < U.length) :
    ((t - U.getD i 0) / (U.getD (i + q + 1) 0 - U.getD i 0) *
        (1 - insCoeff U u k q (i + 1)) +
      (U.getD (i + q + 2) 0 - t) / (U.getD (i + q + 2) 0 - U.getD (i + 1) 0) *
        insCoeff U u k q (i + 1)) *
        basisN (oneInsert U k u) (i + 1) q t =
      (insCoeff U u k (q + 1) i *
          (((oneInsert U k u).getD (i + q + 2) 0 - t) /
            ((oneInsert U k u).getD (i + q + 2) 0 - (oneInsert U k u).getD (i + 1) 0)) +
        (1 - insCoeff U u k (q + 1) (i + 1)) *
          ((t - (oneInsert U k u).getD (i + 1) 0) /
            ((oneInsert U k u).getD (i + 1 + q + 1) 0 - (oneInsert U k u).getD (i + 1) 0))) *
        basisN (oneInsert U k u) (i + 1) q t := by
  have hkU : k + 1 ≤ U.length := le_of_lt hk1
  have e1 : i + 1 + q + 1 = i + q + 2 := by omega
  by_cases hR4 : k + 1 ≤ i
  · -- right of the window: all insertion coefficients collapse, U' reads shift by one
    have hb : insCoeff U u k q (i + 1) = 0 := by
      unfold insCoeff; rw [if_neg (by omega), if_pos (by omega)]
    have ha1 : insCoeff U u k (q + 1) i = 0 := by
      unfold insCoeff; rw [if_neg (by omega), if_pos (by omega)]
    have ha2 : insCoeff U u k (q + 1) (i + 1) = 0 := by
      unfold insCoeff; rw [if_neg (by omega), if_pos (by omega)]
    have hy : (oneInsert U k u).getD (i + 1) 0 = U.getD i 0 :=
      getD_oneInsert_right U k u i hkU (by omega)
    have hB : (oneInsert U k u).getD (i + 1 + q + 1) 0 = U.getD (i + q + 1) 0 := by
      rw [e1, show i + q + 2 = i + q + 1 + 1 from rfl]
      exact getD_oneInsert_right U k u (i + q + 1) hkU (by omega)
    rw [hb, ha1, ha2, hy, hB]
    ring
  · by_cases hR1 : i + q + 2 ≤ k
    · -- left of the window: coefficients are 1, U' reads are unchanged
      have hb : insCoeff U u k q (i + 1) = 1 := by
        unfold insCoeff; rw [if_pos (by omega)]
      have ha1 : insCoeff U u k (q + 1) i = 1 := by
        unfold insCoeff; rw [if_pos (by omega)]
      have ha2 : insCoeff U u k (q + 1) (i + 1) = 1 := by
        unfold insCoeff; rw [if_pos (by omega)]
      have hy : (oneInsert U k u).getD (i + 1) 0 = U.getD (i + 1) 0 :=
        getD_oneInsert_left U k u (i + 1) hkU (by omega)
      have hB : (oneInsert U k u).getD (i + q + 2) 0 = U.getD (i + q + 2) 0 :=
        getD_oneInsert_left U k u (i + q + 2) hkU (by omega)
      rw [hb, ha1, ha2, hy, hB]
      ring
    · by_cases hR2 : i + q + 2 = k + 1
      · -- the right end of the affected reads hits the inserted value u
        have hb : insCoeff U u k q (i + 1) = 1 := by
          unfold insCoeff; rw [if_pos (by omega)]
        have ha1 : insCoeff U u k (q + 1) i = 1 := by
          unfold insCoeff; rw [if_pos (by omega)]
        have ha2 : insCoeff U u k (q + 1) (i + 1) =
            (u - U.getD (i + 1) 0) / (U.getD (i + q + 2) 0 - U.getD (i + 1) 0) := by
          unfold insCoeff
          rw [if_neg (by omega), if_neg (by omega),
            show i + 1 + (q + 1) = i + q + 2 from by omega]
        have hy : (oneInsert U k u).getD (i + 1) 0 = U.getD (i + 1) 0 :=
          getD_oneInsert_left U k u (i + 1) hkU (by omega)
        have hB : (oneInsert U k u).getD (i + q + 2) 0 = u := by
          rw [hR2]; exact getD_oneInsert_mid U k u hkU
        have hB2 : (oneInsert U k u).getD (i + 1 + q + 1) 0 = u := by
          rw [e1, hR2]; exact getD_oneInsert_mid U k u hkU
        by_cases hdeg : u = U.getD (i + 1) 0
        · have hz : basisN (oneInsert U k u) (i + 1) q t = 0 := by
            apply basisN_zero_of_const
            intro j hj1 hj2
            rw [hy, ← hdeg]
            rcases le_or_lt j k with hjk | hjk
            · rw [getD_oneInsert_left U k u j hkU hjk]
              have m1 : U.getD (i + 1) 0 ≤ U.getD j 0 :=
                getD_mono U hval (i + 1) j hj1 (by omega)
              have m2 : U.getD j 0 ≤ U.getD k 0 := getD_mono U hval j k hjk (by omega)
              rw [← hdeg] at m1
              linarith
            · have hj3 : j = k + 1 := by omega
              rw [hj3, getD_oneInsert_mid U k u hkU]
          rw [hz]; ring
        · have hd2 : u - U.getD (i + 1) 0 ≠ 0 := sub_ne_zero.mpr hdeg
          have hd3 : U.getD (i + q + 2) 0 - U.getD (i + 1) 0 ≠ 0 := by
            have m1 : U.getD (i + 1) 0 ≤ U.getD k 0 :=
              getD_mono U hval (i + 1) k (by omega) (by omega)
            have m2 : U.getD (k + 1) 0 ≤ U.getD (i + q + 2) 0 :=
              getD_mono U hval (k + 1) (i + q + 2) (by omega) (by omega)
            have : U.getD (i + 1) 0 < U.getD (i + q + 2) 0 := by linarith
            exact sub_ne_zero.mpr (ne_of_gt this)
          rw [hb, ha1, ha2, hy, hB, hB2]
          have key : (t - U.getD i 0) / (U.getD (i + q + 1) 0 - U.getD i 0) * (1 - 1) +
              (U.getD (i + q + 2) 0 - t) / (U.getD (i + q + 2) 0 - U.getD (i + 1) 0) * 1 =
              1 * ((u - t) / (u - U.getD (i + 1) 0)) +
                (1 - (u - U.getD (i + 1) 0) / (U.getD (i + q + 2) 0 - U.getD (i + 1) 0)) *
                  ((t - U.getD (i + 1) 0) / (u - U.getD (i + 1) 0)) := by
            rw [sub_self, mul_zero, zero_add, mul_one, one_mul, one_sub_div hd3,
              div_mul_div_comm, div_add_div _ _ hd2 (mul_ne_zero hd3 hd2),
              div_eq_div_iff hd3 (mul_ne_zero hd2 (mul_ne_zero hd3 hd2))]
            ring
          rw [key]
      · by_cases hR3b : i = k
        · -- the left end of the affected reads hits the inserted value u
          have hb : insCoeff U u k q (i + 1) = 0 := by
            unfold insCoeff; rw [if_neg (by omega), if_pos (by omega)]
          have ha1 : insCoeff U u k (q + 1) i =
              (u - U.getD i 0) / (U.getD (i + q + 1) 0 - U.getD i 0) := by
            unfold insCoeff
            rw [if_neg (by omega), if_neg (by omega),
              show i + (q + 1) = i + q + 1 from rfl]
          have ha2 : insCoeff U u k (q + 1) (i + 1) = 0 := by
            unfold insCoeff; rw [if_neg (by omega), if_pos (by omega)]
          have hy : (oneInsert U k u).getD (i + 1) 0 = u := by
            rw [show i + 1 = k + 1 from by omega]
            exact getD_oneInsert_mid U k u hkU
          have hB : (oneInsert U k u).getD (i + q + 2) 0 = U.getD (i + q + 1) 0 := by
            rw [show i + q + 2 = i + q + 1 + 1 from rfl]
            exact getD_oneInsert_right U k u (i + q + 1) hkU (by omega)
          have hB2 : (oneInsert U k u).getD (i + 1 + q + 1) 0 = U.getD (i + q + 1) 0 := by
            rw [e1]; exact hB
          have hd1 : U.getD (i + q + 1) 0 - U.getD i 0 ≠ 0 := by
            have m2 : U.getD (k + 1) 0 ≤ U.getD (i + q + 1) 0 :=
              getD_mono U hval (k + 1) (i + q + 1) (by omega) (by omega)
            have hx : U.getD i 0 = U.getD k 0 := by rw [hR3b]
            have : U.getD i 0 < U.getD (i + q + 1) 0 := by rw [hx]; linarith
            exact sub_ne_zero.mpr (ne_of_gt this)
          have hd2 : U.getD (i + q + 1) 0 - u ≠ 0 := by
            have m2 : U.getD (k + 1) 0 ≤ U.getD (i + q + 1) 0 :=
              getD_mono U hval (k + 1) (i + q + 1) (by omega) (by omega)
            have : u < U.getD (i + q + 1) 0 := by linarith
            exact sub_ne_zero.mpr (ne_of_gt this)
          rw [hb, ha1, ha2, hy, hB, hB2]
          have key : (t - U.getD i 0) / (U.getD (i + q + 1) 0 - U.getD i 0) * (1 - 0) +
              (U.getD (i + q + 2) 0 - t) / (U.getD (i + q + 2) 0 - U.getD (i + 1) 0) * 0 =
              (u - U.getD i 0) / (U.getD (i + q + 1) 0 - U.getD i 0) *
                  ((U.getD (i + q + 1) 0 - t) / (U.getD (i + q + 1) 0 - u)) +
                (1 - 0) * ((t - u) / (U.getD (i + q + 1) 0 - u)) := by
            simp only [sub_zero, mul_zero, add_zero, mul_one, one_mul]
            rw [div_mul_div_comm, div_add_div _ _ (mul_ne_zero hd1 hd2) hd2,
              div_eq_div_iff hd1 (mul_ne_zero (mul_ne_zero hd1 hd2) hd2)]
            ring
          rw [key]
        · -- interior of the window on both rows: generic rational identity
          have hik : i + 1 ≤ k := by omega
          have hb : insCoeff U u k q (i + 1) =
              (u - U.getD (i + 1) 0) / (U.getD (i + q + 1) 0 - U.getD (i + 1) 0) := by
            unfold insCoeff
            rw [if_neg (by omega), if_neg (by omega),
              show i + 1 + q = i + q + 1 from by omega]
          have ha1 : insCoeff U u k (q + 1) i =
              (u - U.getD i 0) / (U.getD (i + q + 1) 0 - U.getD i 0) := by
            unfold insCoeff
            rw [if_neg (by omega), if_neg (by omega),
              show i + (q + 1) = i + q + 1 from rfl]
          have ha2 : insCoeff U u k (q + 1) (i + 1) =
              (u - U.getD (i + 1) 0) / (U.getD (i + q + 2) 0 - U.getD (i + 1) 0) := by
            unfold insCoeff
            rw [if_neg (by omega), if_neg (by omega),
              show i + 1 + (q + 1) = i + q + 2 from by omega]
          have hy : (oneInsert U k u).getD (i + 1) 0 = U.getD (i + 1) 0 :=
            getD_oneInsert_left U k u (i + 1) hkU hik
          have hB : (oneInsert U k u).getD (i + q + 2) 0 = U.getD (i + q + 1) 0 := by
            rw [show i + q + 2 = i + q + 1 + 1 from rfl]
            exact getD_oneInsert_right U k u (i + q + 1) hkU (by omega)
          have hB2 : (oneInsert U k u).getD (i + 1 + q + 1) 0 = U.getD (i + q + 1) 0 := by
            rw [e1]; exact hB
          have m1 : U.getD i 0 ≤ U.getD k 0 := getD_mono U hval i k (by omega) (by omega)
          have m2 : U.getD (i + 1) 0 ≤ U.getD k 0 :=
            getD_mono U hval (i + 1) k hik (by omega)
          have m3 : U.getD (k + 1) 0 ≤ U.getD (i + q + 1) 0 :=
            getD_mono U hval (k + 1) (i + q + 1) (by omega) (by omega)
          have m4 : U.getD (k + 1) 0 ≤ U.getD (i + q + 2) 0 :=
            getD_mono U hval (k + 1) (i + q + 2) (by omega) (by omega)
          have hd1 : U.getD (i + q + 1) 0 - U.getD i 0 ≠ 0 :=
            sub_ne_zero.mpr (ne_of_gt (by linarith))
          have hd2 : U.getD (i + q + 1) 0 - U.getD (i + 1) 0 ≠ 0 :=
            sub_ne_zero.mpr (ne_of_gt (by linarith))
          have hd3 : U.getD (i + q + 2) 0 - U.getD (i + 1) 0 ≠ 0 :=
            sub_ne_zero.mpr (ne_of_gt (by linarith))
          rw [hb, ha1, ha2, hy, hB, hB2]
          have key : (t - U.getD i 0) / (U.getD (i + q + 1) 0 - U.getD i 0) *
              (1 - (u - U.getD (i + 1) 0) / (U.getD (i + q + 1) 0 - U.getD (i + 1) 0)) +
              (U.getD (i + q + 2) 0 - t) / (U.getD (i + q + 2) 0 - U.getD (i + 1) 0) *
                ((u - U.getD (i + 1) 0) / (U.getD (i + q + 1) 0 - U.getD (i + 1) 0)) =
              (u - U.getD i 0) / (U.getD (i + q + 1) 0 - U.getD i 0) *
                  ((U.getD (i + q + 1) 0 - t) /
                    (U.getD (i + q + 1) 0 - U.getD (i + 1) 0)) +
                (1 - (u - U.getD (i + 1) 0) / (U.getD (i + q + 2) 0 - U.getD (i + 1) 0)) *
                  ((t - U.getD (i + 1) 0) /
                    (U.getD (i + q + 1) 0 - U.getD (i + 1) 0)) := by
            rw [one_sub_div hd2, one_sub_div hd3, div_mul_div_comm, div_mul_div_comm,
              div_mul_div_comm, div_mul_div_comm,
              div_add_div _ _ (mul_ne_zero hd1 hd2) (mul_ne_zero hd3 hd2),
              div_add_div _ _ (mul_ne_zero hd1 hd2) (mul_ne_zero hd3 hd2),
              div_eq_div_iff (mul_ne_zero (mul_ne_zero hd1 hd2) (mul_ne_zero hd3 hd2))
                (mul_ne_zero (mul_ne_zero hd1 hd2) (mul_ne_zero hd3 hd2))]
            ring
          rw [key]

theorem insert_D3 (U : List ℚ) (u : ℚ) (k q i : ℕ) (t : ℚ)
    (hval : isValidKnotVector U) (hk1 : k + 1 < U.length)
    (hul : U.getD k 0 ≤ u) (hur : u < U.getD (k + 1) 0)
    (hrange : i + q + 2 < U.length) :
    (U.getD (i + q + 2) 0 - t) / (U.getD (i + q + 2) 0 - U.getD (i + 1) 0) *
        (1 - insCoeff U u k q (i + 1 + 1)) =
      (1 - insCoeff U u k (q + 1) (i + 1)) *
        (((oneInsert U k u).getD (i + 1 + q + 2) 0 - t) /
          ((oneInsert U k u).getD (i + 1 + q + 2) 0 -
            (oneInsert U k u).getD (i + 1 + 1) 0)) := by
  have hkU : k + 1 ≤ U.length := le_of_lt hk1
  have e2 : i + 1 + q + 2 = i + q + 2 + 1 := by omega
  by_cases hS1 : i + q + 2 ≤ k
  · have hb : insCoeff U u k q (i + 1 + 1) = 1 := by
      unfold insCoeff; rw [if_pos (by omega)]
    have ha : insCoeff U u k (q + 1) (i + 1) = 1 := by
      unfold insCoeff; rw [if_pos (by omega)]
    rw [hb, ha]; ring
  · by_cases hS2 : k ≤ i
    · have hb : insCoeff U u k q (i + 1 + 1) = 0 := by
        unfold insCoeff; rw [if_neg (by omega), if_pos (by omega)]
      have ha : insCoeff U u k (q + 1) (i + 1) = 0 := by
        unfold insCoeff; rw [if_neg (by omega), if_pos (by omega)]
      have hz : (oneInsert U k u).getD (i + 1 + 1) 0 = U.getD (i + 1) 0 :=
        getD_oneInsert_right U k u (i + 1) hkU (by omega)
      have hB : (oneInsert U k u).getD (i + 1 + q + 2) 0 = U.getD (i + q + 2) 0 := by
        rw [e2]; exact getD_oneInsert_right U k u (i + q + 2) hkU (by omega)
      rw [hb, ha, hz, hB]
      ring
    · have ha : insCoeff U u k (q + 1) (i + 1) =
          (u - U.getD (i + 1) 0) / (U.getD (i + q + 2) 0 - U.getD (i + 1) 0) := by
        unfold insCoeff
        rw [if_neg (by omega), if_neg (by omega),
          show i + 1 + (q + 1) = i + q + 2 from by omega]
      have hB : (oneInsert U k u).getD (i + 1 + q + 2) 0 = U.getD (i + q + 2) 0 := by
        rw [e2]; exact getD_oneInsert_right U k u (i + q + 2) hkU (by omega)
      have m2 : U.getD (i + 1) 0 ≤ U.getD k 0 :=
        getD_mono U hval (i + 1) k (by omega) (by omega)
      have m4 : U.getD (k + 1) 0 ≤ U.getD (i + q + 2) 0 :=
        getD_mono U hval (k + 1) (i + q + 2) (by omega) (by omega)
      have hd3 : U.getD (i + q + 2) 0 - U.getD (i + 1) 0 ≠ 0 :=
        sub_ne_zero.mpr (ne_of_gt (by linarith))
      by_cases hS3b : i + 2 = k + 1
      · have hb : insCoeff U u k q (i + 1 + 1) = 0 := by
          unfold insCoeff; rw [if_neg (by omega), if_pos (by omega)]
        have hz : (oneInsert U k u).getD (i + 1 + 1) 0 = u := by
          rw [show i + 1 + 1 = k + 1 from by omega]
          exact getD_oneInsert_mid U k u hkU
        have hdu : U.getD (i + q + 2) 0 - u ≠ 0 :=
          sub_ne_zero.mpr (ne_of_gt (by linarith))
        rw [hb, ha, hz, hB, one_sub_div hd3, div_mul_div_comm, sub_zero, mul_one,
          div_eq_div_iff hd3 (mul_ne_zero hd3 hdu)]
        ring
      · have hb : insCoeff U u k q (i + 1 + 1) =
            (u - U.getD (i + 2) 0) / (U.getD (i + q + 2) 0 - U.getD (i + 2) 0) := by
          unfold insCoeff
          rw [if_neg (by omega), if_neg (by omega),
            show i + 1 + 1 + q = i + q + 2 from by omega,
            show i + 1 + 1 = i + 2 from rfl]
        have hz : (oneInsert U k u).getD (i + 1 + 1) 0 = U.getD (i + 2) 0 := by
          rw [show i + 1 + 1 = i + 2 from rfl]
          exact getD_oneInsert_left U k u (i + 2) hkU (by omega)
        have m5 : U.getD (i + 2) 0 ≤ U.getD k 0 :=
          getD_mono U hval (i + 2) k (by omega) (by omega)
        have hd4 : U.getD (i + q + 2) 0 - U.getD (i + 2) 0 ≠ 0 :=
          sub_ne_zero.mpr (ne_of_gt (by linarith))
        rw [hb, ha, hz, hB, one_sub_div hd4, one_sub_div hd3, div_mul_div_comm,
          div_mul_div_comm,
          div_eq_div_iff (mul_ne_zero hd3 hd4) (mul_ne_zero hd3 hd4)]
        ring

/-- Splitting a degree-0 basis indicator at an interior point b of [a, c]. -/
theorem indicator_insert_split (a b c t : ℚ) (h1 : a ≤ b) (h2 : b ≤ c) :
    (if a ≤ t ∧ t < c then (1 : ℚ) else 0) =
      (if a ≤ t ∧ t < b then (1 : ℚ) else 0) +
        (if b ≤ t ∧ t < c then (1 : ℚ) else 0) := by
  rcases lt_or_le t a with h | h
  · simp [not_le.mpr h, not_le.mpr (lt_of_lt_of_le h h1)]
  rcases lt_or_le t b with h3 | h3
  · simp [h, h3, lt_of_lt_of_le h3 h2, not_le.mpr h3]
  rcases lt_or_le t c with h4 | h4
  · simp [le_trans h1 h3, h3, h4, not_lt.mpr h3]
  · simp [not_lt.mpr h4, not_lt.mpr (le_trans h2 h4)]

/-- Boehm's knot insertion identity for a single B-spline basis function: a
basis function over U is the combination of two consecutive basis functions
over the knot vector with u inserted after position k, with the insertion
coefficients insCoeff. -/
theorem basisN_insert (U : List ℚ) (u : ℚ) (k : ℕ)
    (hval : isValidKnotVector U) (hk1 : k + 1 < U.length)
    (hul : U.getD k 0 ≤ u) (hur : u < U.getD (k + 1) 0) :
    ∀ (p : ℕ), ∀ (i : ℕ) (t : ℚ), i + p + 1 < U.length →
      basisN U i p t =
        insCoeff U u k p i * basisN (oneInsert U k u) i p t +
          (1 - insCoeff U u k p (i + 1)) * basisN (oneInsert U k u) (i + 1) p t := by
  have hkU : k + 1 ≤ U.length := le_of_lt hk1
  intro p
  induction p with
  | zero =>
      intro i t hi
      by_cases hA : k + 1 ≤ i
      · have hb0 : insCoeff U u k 0 i = 0 := by
          unfold insCoeff; rw [if_neg (by omega), if_pos (by omega)]
        have hb1 : insCoeff U u k 0 (i + 1) = 0 := by
          unfold insCoeff; rw [if_neg (by omega), if_pos (by omega)]
        have hy : (oneInsert U k u).getD (i + 1) 0 = U.getD i 0 :=
          getD_oneInsert_right U k u i hkU (by omega)
        have hz : (oneInsert U k u).getD (i + 1 + 1) 0 = U.getD (i + 1) 0 :=
          getD_oneInsert_right U k u (i + 1) hkU (by omega)
        simp only [basisN]
        rw [hb0, hb1, hy, hz]
        ring
      · by_cases hB : i + 1 ≤ k
        · have hb0 : insCoeff U u k 0 i = 1 := by
            unfold insCoeff; rw [if_pos (by omega)]
          have hb1 : insCoeff U u k 0 (i + 1) = 1 := by
            unfold insCoeff; rw [if_pos (by omega)]
          have hy : (oneInsert U k u).getD i 0 = U.getD i 0 :=
            getD_oneInsert_left U k u i hkU (by omega)
          have hz : (oneInsert U k u).getD (i + 1) 0 = U.getD (i + 1) 0 :=
            getD_oneInsert_left U k u (i + 1) hkU hB
          simp only [basisN]
          rw [hb0, hb1, hy, hz]
          ring
        · have hik : i = k := by omega
          subst hik
          have hb0 : insCoeff U u i 0 i = 1 := by
            unfold insCoeff; rw [if_pos (by omega)]
          have hb1 : insCoeff U u i 0 (i + 1) = 0 := by
            unfold insCoeff; rw [if_neg (by omega), if_pos (by omega)]
          have hy : (oneInsert U i u).getD i 0 = U.getD i 0 :=
            getD_oneInsert_left U i u i hkU (by omega)
          have hm : (oneInsert U i u).getD (i + 1) 0 = u := getD_oneInsert_mid U i u hkU
          have hz : (oneInsert U i u).getD (i + 1 + 1) 0 = U.getD (i + 1) 0 :=
            getD_oneInsert_right U i u (i + 1) hkU (by omega)
          simp only [basisN]
          rw [hb0, hb1, hy, hm, hz,
            indicator_insert_split (U.getD i 0) u (U.getD (i + 1) 0) t hul (le_of_lt hur)]
          ring
  | succ q ih =>
      intro i t hi
      have hi1 : i + q + 1 < U.length := by omega
      have hi2 : i + 1 + q + 1 < U.length := by omega
      have hr : i + q + 2 < U.length := by omega
      simp only [basisN]
      rw [ih i t hi1, ih (i + 1) t hi2]
      linear_combination
        insert_D1 U u k q i t hval hk1 hul hur hr +
        insert_D2 U u k q i t hval hk1 hul hur hr +
        basisN (oneInsert U k u) (i + 1 + 1) q t *
          insert_D3 U u k q i t hval hk1 hul hur hr

/-- Modelled from the spec: BsplineCurve::GetPointOnCurve, the homogeneous
curve point C^w(t) = sum over i of N_{i,p}(t) * Pw_i (the BsplineCurve source
file is not among the sources; the spec describes evaluation as the
basis-weighted sum of the weighted control points). -/
def curvePointH (U : List ℚ) (P : List (XYZW ℚ)) (p : ℕ) (t : ℚ) : XYZW ℚ :=
  fun c => ∑ i ∈ Finset.range P.length, basisN U i p t * P.getD i 0 c

/-- NurbsCurve::GetPointOnCurve after its guards (NurbsCurve.cpp lines 36-37):
the homogeneous B-spline point projected by ToXYZ(true). -/
def GetPointOnCurve (degree : ℕ) (knotVector : List ℚ) (paramT : ℚ)
    (controlPoints : List (XYZW ℚ)) : XYZ ℚ :=
  toXYZ (curvePointH knotVector controlPoints degree paramT)

/-- One formal Boehm knot insertion on weighted control points:
Q_i = a_i P_i + (1 - a_i) P_{i-1} with a_i the insertion coefficient. -/
def insertOnceCp (P : List (XYZW ℚ)) (V : List ℚ) (u : ℚ) (k p : ℕ) :
    List (XYZW ℚ) :=
  (List.range (P.length + 1)).map fun i =>
    insCoeff V u k p i • P.getD i 0 + (1 - insCoeff V u k p i) • P.getD (i - 1) 0

theorem length_insertOnceCp (P : List (XYZW ℚ)) (V : List ℚ) (u : ℚ) (k p : ℕ) :
    (insertOnceCp P V u k p).length = P.length + 1 := by
  simp [insertOnceCp]

theorem getD_insertOnceCp (P : List (XYZW ℚ)) (V : List ℚ) (u : ℚ) (k p i : ℕ)
    (hi : i < P.length + 1) :
    (insertOnceCp P V u k p).getD i 0 =
      insCoeff V u k p i • P.getD i 0 + (1 - insCoeff V u k p i) • P.getD (i - 1) 0 := by
  unfold insertOnceCp
  rw [List.getD_eq_getElem?_getD, List.getElem?_map, List.getElem?_range hi]
  rfl

/-- A single Boehm insertion leaves the homogeneous curve point unchanged:
the basis identity basisN_insert summed against the control points. -/
theorem sum_insert (U : List ℚ) (P : List (XYZW ℚ)) (u : ℚ) (k p : ℕ) (t : ℚ)
    (c : Fin 4)
    (hval : isValidKnotVector U) (hk1 : k + 1 < U.length)
    (hul : U.getD k 0 ≤ u) (hur : u < U.getD (k + 1) 0)
    (hpk : p ≤ k) (hkn : k < P.length)
    (hlen : U.length = P.length + p + 1) :
    curvePointH U P p t c =
      curvePointH (oneInsert U k u) (insertOnceCp P U u k p) p t c := by
  unfold curvePointH
  rw [length_insertOnceCp]
  have hL : ∀ i ∈ Finset.range P.length,
      basisN U i p t * P.getD i 0 c =
        insCoeff U u k p i * basisN (oneInsert U k u) i p t * P.getD i 0 c +
          (1 - insCoeff U u k p (i + 1)) * basisN (oneInsert U k u) (i + 1) p t *
            P.getD i 0 c := by
    intro i hi
    rw [Finset.mem_range] at hi
    rw [basisN_insert U u k hval hk1 hul hur p i t (by omega)]
    ring
  rw [Finset.sum_congr rfl hL, Finset.sum_add_distrib]
  have hR : ∀ j ∈ Finset.range (P.length + 1),
      basisN (oneInsert U k u) j p t * (insertOnceCp P U u k p).getD j 0 c =
        insCoeff U u k p j * basisN (oneInsert U k u) j p t * P.getD j 0 c +
          (1 - insCoeff U u k p j) * basisN (oneInsert U k u) j p t *
            P.getD (j - 1) 0 c := by
    intro j hj
    rw [Finset.mem_range] at hj
    rw [getD_insertOnceCp P U u k p j hj]
    simp only [Pi.add_apply, Pi.smul_apply, smul_eq_mul]
    ring
  rw [Finset.sum_congr rfl hR, Finset.sum_add_distrib]
  congr 1
  · rw [Finset.sum_range_succ]
    have hz : insCoeff U u k p P.length = 0 := by
      unfold insCoeff; rw [if_neg (by omega), if_pos (by omega)]
    rw [hz, zero_mul, zero_mul, add_zero]
  · rw [Finset.sum_range_succ']
    have h0 : insCoeff U u k p 0 = 1 := by
      unfold insCoeff; rw [if_pos (by omega)]
    rw [h0]
    simp only [sub_self, zero_mul, add_zero, Nat.add_sub_cancel]

/-- The knot vector after j formal insertions of u at span k: j copies of u
placed after position k. -/
def insUit (U : List ℚ) (u : ℚ) (k : ℕ) (j : ℕ) : List ℚ :=
  U.take (k + 1) ++ (List.replicate j u ++ U.drop (k + 1))

/-- The control points after j formal Boehm insertions of u at span k. -/
def insPit (U : List ℚ) (P : List (XYZW ℚ)) (u : ℚ) (k p : ℕ) : ℕ → List (XYZW ℚ)
  | 0 => P
  | j + 1 => insertOnceCp (insPit U P u k p j) (insUit U u k j) u (k + j) p

theorem insUit_zero (U : List ℚ) (u : ℚ) (k : ℕ) : insUit U u k 0 = U := by
  simp [insUit]

theorem length_insUit (U : List ℚ) (u : ℚ) (k j : ℕ) (hk : k + 1 ≤ U.length) :
    (insUit U u k j).length = U.length + j := by
  simp [insUit]
  omega

theorem length_insPit (U : List ℚ) (P : List (XYZW ℚ)) (u : ℚ) (k p : ℕ) :
    ∀ j, (insPit U P u k p j).length = P.length + j := by
  intro j
  induction j with
  | zero => rfl
  | succ m ih => rw [insPit, length_insertOnceCp, ih]; omega

theorem oneInsert_append (l1 l2 : List ℚ) (u : ℚ) (k : ℕ) (h : l1.length = k + 1) :
    oneInsert (l1 ++ l2) k u = l1 ++ u :: l2 := by
  unfold oneInsert
  rw [List.take_append_eq_append_take, List.drop_append_eq_append_drop,
    List.take_of_length_le (le_of_eq h), List.drop_of_length_le (le_of_eq h), h]
  simp

theorem oneInsert_insUit (U : List ℚ) (u : ℚ) (k j : ℕ) (hk : k + 1 ≤ U.length) :
    oneInsert (insUit U u k j) (k + j) u = insUit U u k (j + 1) := by
  unfold insUit
  rw [← List.append_assoc,
    oneInsert_append (U.take (k + 1) ++ List.replicate j u) (U.drop (k + 1)) u (k + j)
      (by simp; omega),
    List.replicate_succ' j u]
  simp

theorem getD_insUit_left (U : List ℚ) (u : ℚ) (k j idx : ℕ)
    (hk : k + 1 ≤ U.length) (hidx : idx ≤ k) :
    (insUit U u k j).getD idx 0 = U.getD idx 0 := by
  unfold insUit
  rw [List.getD_append _ _ _ _ (by rw [List.length_take]; omega)]
  have h1 : idx < U.length := by omega
  rw [List.getD_eq_getElem _ _ (by rw [List.length_take]; omega),
    List.getD_eq_getElem _ _ h1]
  exact List.getElem_take U

theorem getD_insUit_mid (U : List ℚ) (u : ℚ) (k j idx : ℕ)
    (hk : k + 1 ≤ U.length) (h1 : k + 1 ≤ idx) (h2 : idx ≤ k + j) :
    (insUit U u k j).getD idx 0 = u := by
  unfold insUit
  rw [List.getD_append_right _ _ _ _ (by rw [List.length_take]; omega),
    List.getD_append _ _ _ _ (by simp; omega)]
  rw [List.getD_eq_getElem _ _ (by simp; omega)]
  exact List.getElem_replicate u _

theorem getD_insUit_right (U : List ℚ) (u : ℚ) (k j idx : ℕ)
    (hk : k + 1 ≤ U.length) (h1 : k + j + 1 ≤ idx) :
    (insUit U u k j).getD idx 0 = U.getD (idx - j) 0 := by
  unfold insUit
  rw [List.getD_append_right _ _ _ _ (by rw [List.length_take]; omega),
    List.getD_append_right _ _ _ _ (by simp; omega)]
  rcases lt_or_le (idx - j) U.length with hlt | hge
  · rw [List.getD_eq_getElem _ _ (by simp [List.length_take]; omega),
      List.getD_eq_getElem _ _ hlt, List.getElem_drop]
    congr 1
    rw [List.length_take, List.length_replicate]
    omega
  · rw [List.getD_eq_default _ _ (by simp [List.length_take]; omega),
      List.getD_eq_default _ _ hge]

theorem valid_insUit (U : List ℚ) (u : ℚ) (k j : ℕ)
    (hval : isValidKnotVector U) (hk1 : k + 1 < U.length)
    (hul : U.getD k 0 ≤ u) (hur : u < U.getD (k + 1) 0) :
    isValidKnotVector (insUit U u k j) := by
  have hp : List.Pairwise (· ≤ ·) U := List.chain'_iff_pairwise.mp hval
  have hbelow : ∀ a ∈ U.take (k + 1), a ≤ u := by
    intro a ha
    obtain ⟨i, hi, rfl⟩ := List.mem_iff_getElem.mp ha
    rw [List.getElem_take U]
    have hik : i ≤ k := by
      rw [List.length_take] at hi
      omega
    have h1 : U.getD i 0 ≤ U.getD k 0 := getD_mono U hval i k hik (by omega)
    rw [List.getD_eq_getElem _ _ (by omega : i < U.length)] at h1
    calc U[i] ≤ U.getD k 0 := h1
      _ ≤ u := hul
  have habove : ∀ b ∈ U.drop (k + 1), u ≤ b := by
    intro b hb
    obtain ⟨i, hi, rfl⟩ := List.mem_iff_getElem.mp hb
    rw [List.getElem_drop _]
    have hlen : k + 1 + i < U.length := by
      rw [List.length_drop] at hi
      omega
    have h1 : U.getD (k + 1) 0 ≤ U.getD (k + 1 + i) 0 :=
      getD_mono U hval (k + 1) (k + 1 + i) (by omega) hlen
    rw [List.getD_eq_getElem _ _ hlen] at h1
    calc u ≤ U.getD (k + 1) 0 := le_of_lt hur
      _ ≤ U[k + 1 + i] := h1
  unfold isValidKnotVector insUit
  rw [List.chain'_iff_pairwise, List.pairwise_append]
  refine ⟨hp.sublist (List.take_sublist _ _), ?_, ?_⟩
  · rw [List.pairwise_append]
    refine ⟨List.pairwise_replicate.mpr (Or.inr (le_refl u)),
      hp.sublist (List.drop_sublist _ _), ?_⟩
    intro a ha b hb
    rw [List.eq_of_mem_replicate ha]
    exact habove b hb
  · intro a ha b hb
    rcases List.mem_append.mp hb with hb1 | hb2
    · rw [List.eq_of_mem_replicate hb1]
      exact hbelow a ha
    · exact le_trans (hbelow a ha) (habove b hb2)

/-- Iterating the formal insertion j times leaves the homogeneous curve point
unchanged. -/
theorem curvePointH_insPit (U : List ℚ) (P : List (XYZW ℚ)) (u : ℚ) (k p : ℕ)
    (hval : isValidKnotVector U) (hk1 : k + 1 < U.length)
    (hul : U.getD k 0 ≤ u) (hur : u < U.getD (k + 1) 0)
    (hpk : p ≤ k) (hkn : k < P.length)
    (hlen : U.length = P.length + p + 1) :
    ∀ (j : ℕ) (t : ℚ) (c : Fin 4),
      curvePointH U P p t c =
        curvePointH (insUit U u k j) (insPit U P u k p j) p t c := by
  intro j
  induction j with
  | zero =>
      intro t c
      rw [insUit_zero]
      rfl
  | succ m ih =>
      intro t c
      rw [ih t c, insPit, ← oneInsert_insUit U u k m (le_of_lt hk1)]
      have hspanl : (insUit U u k m).getD (k + m) 0 ≤ u := by
        cases m with
        | zero => rw [getD_insUit_left U u k 0 (k + 0) (by omega) (by omega)]; exact hul
        | succ m2 =>
            rw [getD_insUit_mid U u k (m2 + 1) (k + (m2 + 1)) (by omega) (by omega)
              (by omega)]
      have hspanr : u < (insUit U u k m).getD (k + m + 1) 0 := by
        rw [getD_insUit_right U u k m (k + m + 1) (by omega) (by omega),
          show k + m + 1 - m = k + 1 from by omega]
        exact hur
      exact sum_insert (insUit U u k m) (insPit U P u k p m) u (k + m) p t c
        (valid_insUit U u k m hval hk1 hul hur)
        (by rw [length_insUit U u k m (by omega)]; omega)
        hspanl hspanr (by omega)
        (by rw [length_insPit]; omega)
        (by rw [length_insUit U u k m (by omega), length_insPit]; omega)

/-! Characterizations of the integer-indexed write loops. -/

theorem intsFromTo_nil (a b : ℤ) (h : b < a) : intsFromTo a b = [] := by
  unfold intsFromTo
  rw [show (b + 1 - a).toNat = 0 from by omega]
  rfl

theorem intsFromTo_cons (a b : ℤ) (h : a ≤ b) : intsFromTo a b = a :: intsFromTo (a + 1) b := by
  unfold intsFromTo
  rw [show (b + 1 - a).toNat = (b + 1 - (a + 1)).toNat + 1 from by omega,
    List.range_succ_eq_map, List.map_cons, List.map_map]
  congr 1
  · simp
  · apply List.map_congr_left
    intro x _
    simp [Function.comp]
    ring

theorem intsFromTo_snoc (a b : ℤ) (h : a ≤ b) :
    intsFromTo a b = intsFromTo a (b - 1) ++ [b] := by
  have key : ∀ (n : ℕ) (a2 : ℤ), (b - a2).toNat = n → a2 ≤ b →
      intsFromTo a2 b = intsFromTo a2 (b - 1) ++ [b] := by
    intro n
    induction n with
    | zero =>
        intro a2 hn ha
        have hab : a2 = b := by omega
        rw [hab, intsFromTo_cons b b (le_refl b), intsFromTo_nil (b + 1) b (by omega),
          intsFromTo_nil b (b - 1) (by omega)]
        rfl
    | succ m ih =>
        intro a2 hn ha
        have hlt : a2 < b := by omega
        rw [intsFromTo_cons a2 b (le_of_lt hlt), ih (a2 + 1) (by omega) (by omega),
          intsFromTo_cons a2 (b - 1) (by omega)]
        rfl
  exact key (b - a).toNat a rfl h

theorem getD_iset {α : Type*} (l : List α) (i : ℤ) (a : α) (m : ℕ) (d : α) :
    (iset l i a).getD m d = if i = (m : ℤ) ∧ m < l.length then a else l.getD m d := by
  unfold iset
  by_cases hc : i = (m : ℤ) ∧ m < l.length
  · obtain ⟨h1, h2⟩ := hc
    rw [if_pos (by omega : (0:ℤ) ≤ i), if_pos ⟨h1, h2⟩,
      List.getD_eq_getElem _ _ (by simpa using h2), List.getElem_set,
      if_pos (by omega)]
  · rw [if_neg hc]
    by_cases h0 : 0 ≤ i
    · rw [if_pos h0, List.getD_eq_getElem?_getD, List.getElem?_set]
      by_cases he : i.toNat = m
      · have hm : l.length ≤ m := by
          rcases not_and_or.mp hc with hx | hx <;> omega
        rw [if_pos he, if_neg (by omega : ¬ i.toNat < l.length),
          List.getD_eq_getElem?_getD, List.getElem?_eq_none (by omega : l.length ≤ m)]
      · rw [if_neg he, ← List.getD_eq_getElem?_getD]
    · rw [if_neg h0]

theorem getD_foldl_iset_shift {α : Type*} (f : ℤ → ℤ) (c : ℤ) (hf : ∀ i, f i = i + c)
    (g : ℤ → α) :
    ∀ (n : ℕ) (a b : ℤ), (b + 1 - a).toNat = n →
      ∀ (l0 : List α) (m : ℕ) (d : α),
        ((intsFromTo a b).foldl (fun l i => iset l (f i) (g i)) l0).getD m d =
          if a ≤ (m : ℤ) - c ∧ (m : ℤ) - c ≤ b ∧ m < l0.length
          then g ((m : ℤ) - c) else l0.getD m d := by
  intro n
  induction n with
  | zero =>
      intro a b hn l0 m d
      rw [intsFromTo_nil a b (by omega), if_neg (by omega)]
      rfl
  | succ nn ih =>
      intro a b hn l0 m d
      rw [intsFromTo_cons a b (by omega), List.foldl_cons, ih (a + 1) b (by omega),
        length_iset, getD_iset, hf a]
      by_cases hm : (m : ℤ) - c = a
      · rw [if_neg (by omega)]
        by_cases hb : m < l0.length
        · rw [if_pos ⟨by omega, hb⟩, if_pos ⟨by omega, by omega, hb⟩, ← hm]
        · rw [if_neg (by intro hx; exact hb hx.2), if_neg (by intro hx; exact hb hx.2.2)]
      · rw [if_neg (show ¬(a + c = (m : ℤ) ∧ m < l0.length) from by
          intro hx; apply hm; omega)]
        by_cases hcond : a + 1 ≤ (m : ℤ) - c ∧ (m : ℤ) - c ≤ b ∧ m < l0.length
        · rw [if_pos hcond, if_pos ⟨by omega, hcond.2⟩]
        · rw [if_neg hcond, if_neg (show ¬(a ≤ (m : ℤ) - c ∧ (m : ℤ) - c ≤ b ∧ m < l0.length)
            from by intro hx; exact hcond ⟨by omega, hx.2⟩)]

theorem getD_sweepFold {α : Type*} (F : ℤ → α → α → α) (d : α) :
    ∀ (n : ℕ) (a b : ℤ), (b + 1 - a).toNat = n → 0 ≤ a →
      ∀ (l0 : List α) (m : ℕ),
        ((intsFromTo a b).foldl
            (fun l i => iset l i (F i (igetD l (i + 1) d) (igetD l i d))) l0).getD m d =
          if a ≤ (m : ℤ) ∧ (m : ℤ) ≤ b ∧ m < l0.length
          then F m (l0.getD (m + 1) d) (l0.getD m d) else l0.getD m d := by
  intro n
  induction n with
  | zero =>
      intro a b hn ha l0 m
      rw [intsFromTo_nil a b (by omega), if_neg (by omega)]
      rfl
  | succ nn ih =>
      intro a b hn ha l0 m
      rw [intsFromTo_cons a b (by omega), List.foldl_cons, ih (a + 1) b (by omega) (by omega),
        length_iset]
      have e1 : igetD l0 (a + 1) d = l0.getD (a + 1).toNat d := by
        unfold igetD; rw [if_pos (by omega)]
      have e2 : igetD l0 a d = l0.getD a.toNat d := by
        unfold igetD; rw [if_pos ha]
      set w := F a (igetD l0 (a + 1) d) (igetD l0 a d) with hw
      by_cases hm : (m : ℤ) = a
      · rw [if_neg (show ¬(a + 1 ≤ (m : ℤ) ∧ (m : ℤ) ≤ b ∧ m < l0.length) from by omega),
          getD_iset]
        by_cases hb : m < l0.length
        · rw [if_pos ⟨by omega, hb⟩, if_pos ⟨by omega, by omega, hb⟩, hw, e1, e2, ← hm,
            show ((m : ℤ) + 1).toNat = m + 1 from by omega,
            show ((m : ℤ)).toNat = m from by omega]
        · rw [if_neg (show ¬(a = (m : ℤ) ∧ m < l0.length) from by intro hx; exact hb hx.2),
            if_neg (show ¬(a ≤ (m : ℤ) ∧ (m : ℤ) ≤ b ∧ m < l0.length) from by
              intro hx; exact hb hx.2.2)]
      · by_cases hcond : a + 1 ≤ (m : ℤ) ∧ (m : ℤ) ≤ b ∧ m < l0.length
        · rw [if_pos hcond, if_pos ⟨by omega, hcond.2⟩, getD_iset, getD_iset,
            if_neg (show ¬(a = ((m + 1 : ℕ) : ℤ) ∧ m + 1 < l0.length) from by
              intro hx; omega),
            if_neg (show ¬(a = (m : ℤ) ∧ m < l0.length) from by intro hx; omega)]
        · rw [if_neg hcond, if_neg (show ¬(a ≤ (m : ℤ) ∧ (m : ℤ) ≤ b ∧ m < l0.length) from by
            intro hx; exact hcond ⟨by omega, hx.2⟩), getD_iset,
            if_neg (show ¬(a = (m : ℤ) ∧ m < l0.length) from by intro hx; omega)]

theorem igetD_nonneg {α : Type*} (l : List α) (i : ℤ) (d : α) (h : 0 ≤ i) :
    igetD l i d = l.getD i.toNat d := by
  unfold igetD; rw [if_pos h]

theorem list_ext_getD {α : Type*} (d : α) (l1 l2 : List α)
    (hlen : l1.length = l2.length)
    (h : ∀ m, m < l1.length → l1.getD m d = l2.getD m d) : l1 = l2 := by
  apply List.ext_getElem hlen
  intro i h1 h2
  have hh := h i h1
  rwa [List.getD_eq_getElem _ _ h1, List.getD_eq_getElem _ _ h2] at hh

/-! Span search and knot multiplicity: bridging lemmas. -/

theorem findSpanAux_le (U : List ℚ) (t : ℚ) : ∀ b, findSpanAux U t b ≤ b := by
  intro b
  induction b with
  | zero => exact le_refl 0
  | succ m ih =>
      unfold findSpanAux
      split
      · exact le_refl _
      · omega

theorem findSpanAux_good (U : List ℚ) (t : ℚ) (h0 : U.getD 0 0 ≤ t) :
    ∀ b, U.getD (findSpanAux U t b) 0 ≤ t := by
  intro b
  induction b with
  | zero => exact h0
  | succ m ih =>
      unfold findSpanAux
      split
      · assumption
      · exact ih

theorem findSpanAux_max (U : List ℚ) (t : ℚ) :
    ∀ b j, j ≤ b → U.getD j 0 ≤ t → j ≤ findSpanAux U t b := by
  intro b
  induction b with
  | zero => intro j hj _; omega
  | succ m ih =>
      intro j hj hUj
      unfold findSpanAux
      split
      · omega
      · rename_i hcond
        have hjm : j ≤ m := by
          rcases eq_or_lt_of_le hj with h | h
          · exfalso; apply hcond; rwa [← h]
          · omega
        exact ih j hjm hUj

theorem span_spec (degree : ℕ) (U : List ℚ) (u : ℚ)
    (hval : isValidKnotVector U) (hsz : degree + 2 ≤ U.length)
    (hdl : U.getD degree 0 ≤ u) (hdu : u < U.getD (U.length - degree - 1) 0) :
    degree ≤ getKnotSpanIndex degree U u ∧
      getKnotSpanIndex degree U u ≤ U.length - degree - 2 ∧
      U.getD (getKnotSpanIndex degree U u) 0 ≤ u ∧
      u < U.getD (getKnotSpanIndex degree U u + 1) 0 := by
  have hneg : ¬ (U.getD (U.length - degree - 2 + 1) 0 ≤ u) := by
    rw [show U.length - degree - 2 + 1 = U.length - degree - 1 from by omega]
    exact not_le.mpr hdu
  have hdn : degree ≤ U.length - degree - 2 := by
    by_contra hcon
    push_neg at hcon
    have h1 : U.getD (U.length - degree - 1) 0 ≤ U.getD degree 0 :=
      getD_mono U hval _ _ (by omega) (by omega)
    linarith
  have hfge : degree ≤ findSpanAux U u (U.length - degree - 2) :=
    findSpanAux_max U u _ degree hdn hdl
  have hle : findSpanAux U u (U.length - degree - 2) ≤ U.length - degree - 2 :=
    findSpanAux_le U u _
  have hgood : U.getD (findSpanAux U u (U.length - degree - 2)) 0 ≤ u :=
    findSpanAux_good U u (le_trans (getD_mono U hval 0 degree (by omega) (by omega)) hdl) _
  have hup : u < U.getD (findSpanAux U u (U.length - degree - 2) + 1) 0 := by
    set k0 := findSpanAux U u (U.length - degree - 2) with hk0
    rcases eq_or_lt_of_le hle with he | hlt
    · rw [he, show U.length - degree - 2 + 1 = U.length - degree - 1 from by omega]
      exact hdu
    · by_contra hcon
      push_neg at hcon
      have := findSpanAux_max U u (U.length - degree - 2) (k0 + 1) (by omega) hcon
      omega
  simp only [getKnotSpanIndex]
  rw [if_neg hneg, max_eq_right hfge]
  exact ⟨hfge, hle, hgood, hup⟩

theorem suffix_block (u : ℚ) :
    ∀ (l : List ℚ), List.Pairwise (· ≤ ·) l → (∀ a ∈ l, a ≤ u) →
    ∀ m, l.length - (l.filter (fun x => x = u)).length ≤ m → m < l.length →
      l.getD m 0 = u := by
  intro l
  induction l with
  | nil => intro _ _ m _ h2; simp at h2
  | cons x xs ih =>
      intro hp hub m h1 h2
      by_cases hx : x = u
      · have hall : ∀ a ∈ x :: xs, a = u := by
          intro a ha
          rcases List.mem_cons.mp ha with h | h
          · rw [h]; exact hx
          · have hxa : x ≤ a := (List.pairwise_cons.mp hp).1 a h
            have hau : a ≤ u := hub a ha
            exact le_antisymm hau (hx ▸ hxa)
        rw [List.getD_eq_getElem _ _ h2]
        exact hall _ (List.getElem_mem _)
      · have hfeq : (x :: xs).filter (fun x => x = u) = xs.filter (fun x => x = u) := by
          rw [List.filter_cons_of_neg]
          simp [hx]
        cases m with
        | zero =>
            exfalso
            have hlen : (xs.filter (fun x => x = u)).length ≤ xs.length :=
              List.length_filter_le _ _
            rw [hfeq] at h1
            simp only [List.length_cons] at h1
            omega
        | succ mm =>
            rw [List.getD_cons_succ]
            apply ih (List.pairwise_cons.mp hp).2
              (fun a ha => hub a (List.mem_cons_of_mem _ ha)) mm
            · rw [hfeq] at h1
              simp only [List.length_cons] at h1
              omega
            · simpa using h2

theorem knot_block (U : List ℚ) (u : ℚ) (k : ℕ)
    (hval : isValidKnotVector U) (hk1 : k + 1 < U.length)
    (hul : U.getD k 0 ≤ u) (hur : u < U.getD (k + 1) 0) :
    getKnotMultiplicity U u ≤ k + 1 ∧
    ∀ m, k + 1 - getKnotMultiplicity U u ≤ m → m ≤ k → U.getD m 0 = u := by
  have hp : List.Pairwise (· ≤ ·) U := List.chain'_iff_pairwise.mp hval
  have hub : ∀ a ∈ U.take (k + 1), a ≤ u := by
    intro a ha
    obtain ⟨i, hi, rfl⟩ := List.mem_iff_getElem.mp ha
    rw [List.getElem_take U]
    have hik : i ≤ k := by
      rw [List.length_take] at hi
      omega
    have h1 : U.getD i 0 ≤ U.getD k 0 := getD_mono U hval i k hik (by omega)
    rw [List.getD_eq_getElem _ _ (by omega : i < U.length)] at h1
    calc U[i] ≤ U.getD k 0 := h1
      _ ≤ u := hul
  have hdropnil : (U.drop (k + 1)).filter (fun x => x = u) = [] := by
    rw [List.filter_eq_nil_iff]
    intro a ha
    obtain ⟨i, hi, rfl⟩ := List.mem_iff_getElem.mp ha
    rw [List.length_drop] at hi
    rw [List.getElem_drop _]
    have h1 : U.getD (k + 1) 0 ≤ U.getD (k + 1 + i) 0 :=
      getD_mono U hval (k + 1) (k + 1 + i) (by omega) (by omega)
    simp only [decide_eq_true_eq]
    intro hcon
    rw [← List.getD_eq_getElem _ _ (by omega : k + 1 + i < U.length)] at hcon
    rw [hcon] at h1
    linarith
  have hcount : getKnotMultiplicity U u = ((U.take (k + 1)).filter (fun x => x = u)).length := by
    unfold getKnotMultiplicity
    conv_lhs => rw [← List.take_append_drop (k + 1) U]
    rw [List.filter_append, hdropnil, List.append_nil]
  have hlen_take : (U.take (k + 1)).length = k + 1 := by
    rw [List.length_take]
    omega
  constructor
  · rw [hcount]
    calc ((U.take (k + 1)).filter (fun x => x = u)).length
        ≤ (U.take (k + 1)).length := List.length_filter_le _ _
      _ = k + 1 := hlen_take
  · intro m hm1 hm2
    have hblk := suffix_block u (U.take (k + 1))
      (hp.sublist (List.take_sublist _ _)) hub m
      (by rw [hlen_take, ← hcount]; omega) (by rw [hlen_take]; omega)
    rw [List.getD_eq_getElem _ _ (by rw [hlen_take]; omega)] at hblk
    rw [List.getElem_take U] at hblk
    rw [List.getD_eq_getElem _ _ (by omega : m < U.length)]
    exact hblk

/-! The temp-buffer sweep of one insertion round, characterized. -/

theorem getD_insertKnotTempSweep (degree : ℕ) (U : List ℚ) (u : ℚ) (k s jj : ℤ)
    (temp : List (XYZW ℚ)) (m : ℕ) :
    (insertKnotTempSweep degree U u k s jj temp).getD m 0 =
      if 0 ≤ (m : ℤ) ∧ (m : ℤ) ≤ (degree : ℤ) - jj - s ∧ m < temp.length
      then ((u - igetD U (k - degree + jj + (m : ℤ)) 0) /
            (igetD U ((m : ℤ) + k + 1) 0 - igetD U (k - degree + jj + (m : ℤ)) 0)) •
              temp.getD (m + 1) 0 +
           (1 - (u - igetD U (k - degree + jj + (m : ℤ)) 0) /
            (igetD U ((m : ℤ) + k + 1) 0 - igetD U (k - degree + jj + (m : ℤ)) 0)) •
              temp.getD m 0
      else temp.getD m 0 := by
  have h := getD_sweepFold
    (fun i x y => ((u - igetD U (k - degree + jj + i) 0) /
        (igetD U (i + k + 1) 0 - igetD U (k - degree + jj + i) 0)) • x +
      (1 - (u - igetD U (k - degree + jj + i) 0) /
        (igetD U (i + k + 1) 0 - igetD U (k - degree + jj + i) 0)) • y)
    (0 : XYZW ℚ) ((degree : ℤ) - jj - s + 1 - 0).toNat 0 ((degree : ℤ) - jj - s) rfl
    (le_refl 0) temp m
  exact h

/-! Mathematical stability of the iterated insertion. -/

theorem insPit_low (U : List ℚ) (P : List (XYZW ℚ)) (u : ℚ) (k p : ℕ)
    (hkn : k < P.length) (j m : ℕ) (hm : m + p ≤ k + j) :
    (insPit U P u k p (j + 1)).getD m 0 = (insPit U P u k p j).getD m 0 := by
  rw [insPit, getD_insertOnceCp _ _ _ _ _ _ (by rw [length_insPit]; omega)]
  have ha : insCoeff (insUit U u k j) u (k + j) p m = 1 := by
    unfold insCoeff; rw [if_pos (by omega)]
  rw [ha, one_smul, sub_self, zero_smul, add_zero]

theorem insPit_low_iter (U : List ℚ) (P : List (XYZW ℚ)) (u : ℚ) (k p : ℕ)
    (hkn : k < P.length) :
    ∀ (d j m : ℕ), m + p ≤ k + j →
      (insPit U P u k p (j + d)).getD m 0 = (insPit U P u k p j).getD m 0 := by
  intro d
  induction d with
  | zero => intro j m _; rfl
  | succ dd ih =>
      intro j m hm
      rw [show j + (dd + 1) = (j + dd) + 1 from rfl,
        insPit_low U P u k p hkn (j + dd) m (by omega), ih j m hm]

theorem insPit_high (U : List ℚ) (P : List (XYZW ℚ)) (u : ℚ) (k p s r : ℕ)
    (hkn : k < P.length) (hpk : p ≤ k) (hsr : s + r ≤ p)
    (hblock : ∀ m2, k + 1 - s ≤ m2 → m2 ≤ k → U.getD m2 0 = u)
    (hk1 : k + 1 < U.length)
    (j m : ℕ) (hj : j + 1 ≤ r) (hm1 : k + 1 ≤ m + s) (hm2 : m < P.length + j + 1) :
    (insPit U P u k p (j + 1)).getD m 0 = (insPit U P u k p j).getD (m - 1) 0 := by
  rw [insPit, getD_insertOnceCp _ _ _ _ _ _ (by rw [length_insPit]; omega)]
  have ha : insCoeff (insUit U u k j) u (k + j) p m = 0 := by
    unfold insCoeff
    rcases le_or_lt (k + j + 1) m with hc | hc
    · rw [if_neg (by omega), if_pos (by omega)]
    · have hVm : (insUit U u k j).getD m 0 = u := by
        rcases le_or_lt m k with hmk | hmk
        · rw [getD_insUit_left U u k j m (by omega) hmk]
          exact hblock m (by omega) hmk
        · exact getD_insUit_mid U u k j m (by omega) (by omega) (by omega)
      rw [if_neg (by omega), if_neg (by omega), hVm, sub_self, zero_div]
  rw [ha, zero_smul, zero_add, sub_zero, one_smul]

theorem insPit_high_iter (U : List ℚ) (P : List (XYZW ℚ)) (u : ℚ) (k p s r : ℕ)
    (hkn : k < P.length) (hpk : p ≤ k) (hsr : s + r ≤ p)
    (hblock : ∀ m2, k + 1 - s ≤ m2 → m2 ≤ k → U.getD m2 0 = u)
    (hk1 : k + 1 < U.length) :
    ∀ (d j m : ℕ), j + d ≤ r → k - s + d ≤ m → m < P.length + j + d →
      (insPit U P u k p (j + d)).getD m 0 = (insPit U P u k p j).getD (m - d) 0 := by
  intro d
  induction d with
  | zero => intro j m _ _ _; rw [Nat.sub_zero]; rfl
  | succ dd ih =>
      intro j m hjd hmd hmb
      rw [show j + (dd + 1) = (j + dd) + 1 from rfl,
        insPit_high U P u k p s r hkn hpk hsr hblock hk1 (j + dd) m (by omega)
          (by rcases le_or_lt s k with h | h <;> omega) (by omega),
        ih j (m - 1) (by omega) (by omega) (by omega),
        show m - 1 - dd = m - (dd + 1) from by omega]

/-- The value of the round-(j+1) insertion at an interior position, in the
alpha-combination form the code computes. -/
theorem insPit_round_value (U : List ℚ) (P : List (XYZW ℚ)) (u : ℚ) (k p s r : ℕ)
    (hkn : k < P.length) (hpk : p ≤ k) (hsr : s + r ≤ p)
    (hk1 : k + 1 < U.length)
    (j i : ℕ) (hj : j + 1 ≤ r) (hi : i + j + 1 + s ≤ p) :
    (insPit U P u k p (j + 1)).getD (k - p + j + 1 + i) 0 =
      ((u - U.getD (k - p + j + 1 + i) 0) /
        (U.getD (k + 1 + i) 0 - U.getD (k - p + j + 1 + i) 0)) •
          (insPit U P u k p j).getD (k - p + j + 1 + i) 0 +
      (1 - (u - U.getD (k - p + j + 1 + i) 0) /
        (U.getD (k + 1 + i) 0 - U.getD (k - p + j + 1 + i) 0)) •
          (insPit U P u k p j).getD (k - p + j + i) 0 := by
  rw [insPit, getD_insertOnceCp _ _ _ _ _ _ (by rw [length_insPit]; omega)]
  have ha : insCoeff (insUit U u k j) u (k + j) p (k - p + j + 1 + i) =
      (u - U.getD (k - p + j + 1 + i) 0) /
        (U.getD (k + 1 + i) 0 - U.getD (k - p + j + 1 + i) 0) := by
    unfold insCoeff
    rw [if_neg (by omega), if_neg (by omega)]
    have hVm : (insUit U u k j).getD (k - p + j + 1 + i) 0 =
        U.getD (k - p + j + 1 + i) 0 :=
      getD_insUit_left U u k j _ (by omega) (by omega)
    have hVp : (insUit U u k j).getD (k - p + j + 1 + i + p) 0 =
        U.getD (k + 1 + i) 0 := by
      rw [getD_insUit_right U u k j _ (by omega) (by omega),
        show k - p + j + 1 + i + p - j = k + 1 + i from by omega]
    rw [hVm, hVp]
  rw [ha, show k - p + j + 1 + i - 1 = k - p + j + i from by omega]

/-- The knot-vector output of InsertKnot is exactly U with r copies of u
inserted after the span position k. -/
theorem insertKnotNewKv_eq_insUit (degree : ℕ) (U : List ℚ) (u : ℚ) (k r : ℕ)
    (kvInit : List ℚ) (hk1 : k + 1 < U.length) (hr : 1 ≤ r) :
    insertKnotNewKv degree U u (k : ℤ) (r : ℤ) kvInit = insUit U u k r := by
  have hlen0 : (resizeTo kvInit ((((U.length : ℤ)) + (r : ℤ)).toNat) 0).length =
      U.length + r := by
    rw [length_resizeTo]; omega
  apply list_ext_getD (0 : ℚ)
  · rw [length_insertKnotNewKv, length_insUit U u k r (by omega)]
    omega
  · intro m hm
    rw [length_insertKnotNewKv] at hm
    have hmN : m < U.length + r := by omega
    simp only [insertKnotNewKv]
    have h1 := getD_foldl_iset_shift (fun i => i) 0 (fun i => by ring)
      (fun i => igetD U i 0) ((k : ℤ) + 1 - 0).toNat 0 (k : ℤ) rfl
      (resizeTo kvInit ((((U.length : ℤ)) + (r : ℤ)).toNat) 0) m 0
    have h2 := getD_foldl_iset_shift (fun i => (k : ℤ) + i) (k : ℤ)
      (fun i => by ring) (fun _ => u) ((r : ℤ) + 1 - 1).toNat 1 (r : ℤ) rfl
      ((intsFromTo 0 (k : ℤ)).foldl
        (fun kv i => iset kv i (igetD U i 0))
        (resizeTo kvInit ((((U.length : ℤ)) + (r : ℤ)).toNat) 0)) m 0
    have h3 := getD_foldl_iset_shift (fun i => i + (r : ℤ)) (r : ℤ)
      (fun i => rfl) (fun i => igetD U i 0)
      (((U.length : ℤ) - 1) + 1 - ((k : ℤ) + 1)).toNat ((k : ℤ) + 1)
      ((U.length : ℤ) - 1) rfl
      ((intsFromTo 1 (r : ℤ)).foldl
        (fun kv i => iset kv ((k : ℤ) + i) u)
        ((intsFromTo 0 (k : ℤ)).foldl
          (fun kv i => iset kv i (igetD U i 0))
          (resizeTo kvInit ((((U.length : ℤ)) + (r : ℤ)).toNat) 0))) m 0
    have hl1 : ((intsFromTo 0 (k : ℤ)).foldl
        (fun kv i => iset kv i (igetD U i 0))
        (resizeTo kvInit ((((U.length : ℤ)) + (r : ℤ)).toNat) 0)).length =
        U.length + r := by
      rw [length_foldl_of_step _ (fun l i => length_iset _ _ _), hlen0]
    have hl2 : ((intsFromTo 1 (r : ℤ)).foldl
        (fun kv i => iset kv ((k : ℤ) + i) u)
        ((intsFromTo 0 (k : ℤ)).foldl
          (fun kv i => iset kv i (igetD U i 0))
          (resizeTo kvInit ((((U.length : ℤ)) + (r : ℤ)).toNat) 0))).length =
        U.length + r := by
      rw [length_foldl_of_step _ (fun l i => length_iset _ _ _), hl1]
    rw [h3, hl2, h2, hl1, h1, hlen0]
    rcases le_or_lt m k with hm1 | hm1
    · rw [if_neg (by omega), if_neg (by omega), if_pos (by omega),
        igetD_nonneg _ _ _ (by omega), show ((m : ℤ) - 0).toNat = m from by omega,
        getD_insUit_left U u k r m (by omega) hm1]
    · rcases le_or_lt m (k + r) with hm2 | hm2
      · rw [if_neg (by omega), if_pos (by omega),
          getD_insUit_mid U u k r m (by omega) (by omega) hm2]
      · rw [if_pos (by omega), igetD_nonneg _ _ _ (by omega),
          show ((m : ℤ) - (r : ℤ)).toNat = m - r from by omega,
          getD_insUit_right U u k r m (by omega) (by omega)]

/-- The two plain copy loops of InsertKnot on the control-point buffer:
the low region below the affected window and the high region above it. -/
theorem insertKnot_cp2_chars (degree : ℕ) (U : List ℚ) (P : List (XYZW ℚ))
    (u : ℚ) (k s r : ℕ) (cpInit : List (XYZW ℚ))
    (hpk : degree ≤ k) (hkn : k < P.length) (hsr : s + r ≤ degree) (hr : 1 ≤ r) :
    (((intsFromTo ((k : ℤ) - (s : ℤ)) ((P.length : ℤ) - 1)).foldl
        (fun cp i => iset cp (i + (r : ℤ)) (igetD P i 0))
        ((intsFromTo 0 ((k : ℤ) - (degree : ℤ))).foldl
          (fun cp i => iset cp i (igetD P i 0))
          (resizeTo cpInit (((P.length : ℤ) + (r : ℤ)).toNat) 0))).length =
      P.length + r) ∧
    (∀ m, m + degree ≤ k → m < P.length + r →
      ((intsFromTo ((k : ℤ) - (s : ℤ)) ((P.length : ℤ) - 1)).foldl
        (fun cp i => iset cp (i + (r : ℤ)) (igetD P i 0))
        ((intsFromTo 0 ((k : ℤ) - (degree : ℤ))).foldl
          (fun cp i => iset cp i (igetD P i 0))
          (resizeTo cpInit (((P.length : ℤ) + (r : ℤ)).toNat) 0))).getD m 0 =
        P.getD m 0) ∧
    (∀ m, k + r ≤ m + s → m < P.length + r →
      ((intsFromTo ((k : ℤ) - (s : ℤ)) ((P.length : ℤ) - 1)).foldl
        (fun cp i => iset cp (i + (r : ℤ)) (igetD P i 0))
        ((intsFromTo 0 ((k : ℤ) - (degree : ℤ))).foldl
          (fun cp i => iset cp i (igetD P i 0))
          (resizeTo cpInit (((P.length : ℤ) + (r : ℤ)).toNat) 0))).getD m 0 =
        P.getD (m - r) 0) := by
  have hlen0 : (resizeTo cpInit (((P.length : ℤ) + (r : ℤ)).toNat) 0).length =
      P.length + r := by
    rw [length_resizeTo]; omega
  have hl1 : ((intsFromTo 0 ((k : ℤ) - (degree : ℤ))).foldl
      (fun cp i => iset cp i (igetD P i 0))
      (resizeTo cpInit (((P.length : ℤ) + (r : ℤ)).toNat) 0)).length =
      P.length + r := by
    rw [length_foldl_of_step _ (fun l i => length_iset _ _ _), hlen0]
  have hl2 : ((intsFromTo ((k : ℤ) - (s : ℤ)) ((P.length : ℤ) - 1)).foldl
      (fun cp i => iset cp (i + (r : ℤ)) (igetD P i 0))
      ((intsFromTo 0 ((k : ℤ) - (degree : ℤ))).foldl
        (fun cp i => iset cp i (igetD P i 0))
        (resizeTo cpInit (((P.length : ℤ) + (r : ℤ)).toNat) 0))).length =
      P.length + r := by
    rw [length_foldl_of_step _ (fun l i => length_iset _ _ _), hl1]
  refine ⟨hl2, ?_, ?_⟩
  · intro m hm hmN
    have h2 := getD_foldl_iset_shift (fun i => i + (r : ℤ)) (r : ℤ)
      (fun i => rfl) (fun i => igetD P i 0)
      (((P.length : ℤ) - 1) + 1 - ((k : ℤ) - (s : ℤ))).toNat
      ((k : ℤ) - (s : ℤ)) ((P.length : ℤ) - 1) rfl
      ((intsFromTo 0 ((k : ℤ) - (degree : ℤ))).foldl
        (fun cp i => iset cp i (igetD P i 0))
        (resizeTo cpInit (((P.length : ℤ) + (r : ℤ)).toNat) 0)) m 0
    have h1 := getD_foldl_iset_shift (fun i => i) 0 (fun i => by ring)
      (fun i => igetD P i 0) (((k : ℤ) - (degree : ℤ)) + 1 - 0).toNat 0
      ((k : ℤ) - (degree : ℤ)) rfl
      (resizeTo cpInit (((P.length : ℤ) + (r : ℤ)).toNat) 0) m 0
    rw [h2, hl1, h1, hlen0, if_neg (by omega), if_pos (by omega),
      igetD_nonneg _ _ _ (by omega), show ((m : ℤ) - 0).toNat = m from by omega]
  · intro m hm hmN
    have h2 := getD_foldl_iset_shift (fun i => i + (r : ℤ)) (r : ℤ)
      (fun i => rfl) (fun i => igetD P i 0)
      (((P.length : ℤ) - 1) + 1 - ((k : ℤ) - (s : ℤ))).toNat
      ((k : ℤ) - (s : ℤ)) ((P.length : ℤ) - 1) rfl
      ((intsFromTo 0 ((k : ℤ) - (degree : ℤ))).foldl
        (fun cp i => iset cp i (igetD P i 0))
        (resizeTo cpInit (((P.length : ℤ) + (r : ℤ)).toNat) 0)) m 0
    rw [h2, hl1, if_pos (by omega), igetD_nonneg _ _ _ (by omega),
      show ((m : ℤ) - (r : ℤ)).toNat = m - r from by omega]

/-- The body of one insertion round of InsertKnot (NurbsCurve.cpp lines
123-134), as a named step function of the fold. -/
def insertKnotSweepStep (degree : ℕ) (knotVector : List ℚ) (u : ℚ)
    (knotSpanIndex originMultiplicity times : ℤ) :
    List (XYZW ℚ) × List (XYZW ℚ) × ℤ → ℤ → List (XYZW ℚ) × List (XYZW ℚ) × ℤ :=
  fun st j =>
    let L := knotSpanIndex - degree + j
    let temp2 := insertKnotTempSweep degree knotVector u knotSpanIndex
      originMultiplicity j st.1
    let cpA := iset st.2.1 L (igetD temp2 0 0)
    let cpB := iset cpA (knotSpanIndex + times - j - originMultiplicity)
        (igetD temp2 ((degree : ℤ) - j - originMultiplicity) 0)
    (temp2, cpB, L)

theorem insertKnotSweeps_eq_foldl (degree : ℕ) (knotVector : List ℚ) (u : ℚ)
    (knotSpanIndex originMultiplicity times : ℤ)
    (temp : List (XYZW ℚ)) (cp : List (XYZW ℚ)) :
    insertKnotSweeps degree knotVector u knotSpanIndex originMultiplicity times temp cp =
      (intsFromTo 1 times).foldl
        (insertKnotSweepStep degree knotVector u knotSpanIndex originMultiplicity times)
        (temp, cp, 0) := rfl

theorem length_insertKnotTempSweep (degree : ℕ) (knotVector : List ℚ) (u : ℚ)
    (knotSpanIndex originMultiplicity j : ℤ) (temp : List (XYZW ℚ)) :
    (insertKnotTempSweep degree knotVector u knotSpanIndex originMultiplicity j
      temp).length = temp.length := by
  unfold insertKnotTempSweep
  exact length_foldl_of_step _ (fun l i => length_iset _ _ _) _ _

set_option maxHeartbeats 1600000 in
/-- Invariant of the insertion rounds of InsertKnot: after j rounds the temp
buffer holds the fresh window of the j-times-inserted control net, and the
output buffer holds the already-final low positions, right-edge positions,
and the untouched copies elsewhere. -/
theorem insertKnot_sweeps_inv
    (p : ℕ) (U : List ℚ) (P : List (XYZW ℚ)) (u : ℚ) (k s r : ℕ)
    (hpk : p ≤ k) (hkn : k < P.length)
    (hsr : s + r ≤ p) (hr : 1 ≤ r)
    (hk1 : k + 1 < U.length)
    (temp1 cp2 : List (XYZW ℚ))
    (hT1 : temp1.length = p - s + 1)
    (hT2 : ∀ i, i + s ≤ p → temp1.getD i 0 = P.getD (k - p + i) 0)
    (hC0 : cp2.length = P.length + r) :
    ∀ j, j ≤ r →
      ((intsFromTo 1 (j : ℤ)).foldl
        (insertKnotSweepStep p U u (k : ℤ) (s : ℤ) (r : ℤ))
        (temp1, cp2, 0)).1.length = p - s + 1 ∧
      (∀ i, i + j + s ≤ p →
        ((intsFromTo 1 (j : ℤ)).foldl
          (insertKnotSweepStep p U u (k : ℤ) (s : ℤ) (r : ℤ))
          (temp1, cp2, 0)).1.getD i 0 =
          (insPit U P u k p j).getD (k - p + j + i) 0) ∧
      ((intsFromTo 1 (j : ℤ)).foldl
        (insertKnotSweepStep p U u (k : ℤ) (s : ℤ) (r : ℤ))
        (temp1, cp2, 0)).2.1.length = P.length + r ∧
      (∀ j2, 1 ≤ j2 → j2 ≤ j →
        ((intsFromTo 1 (j : ℤ)).foldl
          (insertKnotSweepStep p U u (k : ℤ) (s : ℤ) (r : ℤ))
          (temp1, cp2, 0)).2.1.getD (k - p + j2) 0 =
          (insPit U P u k p j2).getD (k - p + j2) 0) ∧
      (∀ j2, 1 ≤ j2 → j2 ≤ j →
        ((intsFromTo 1 (j : ℤ)).foldl
          (insertKnotSweepStep p U u (k : ℤ) (s : ℤ) (r : ℤ))
          (temp1, cp2, 0)).2.1.getD (k + r - j2 - s) 0 =
          (insPit U P u k p j2).getD (k - s) 0) ∧
      (∀ m, (m + p ≤ k ∨ (k - p + j + 1 ≤ m ∧ m + s + j + 1 ≤ k + r) ∨ k + r ≤ m + s) →
        ((intsFromTo 1 (j : ℤ)).foldl
          (insertKnotSweepStep p U u (k : ℤ) (s : ℤ) (r : ℤ))
          (temp1, cp2, 0)).2.1.getD m 0 = cp2.getD m 0) ∧
      (1 ≤ j →
        ((intsFromTo 1 (j : ℤ)).foldl
          (insertKnotSweepStep p U u (k : ℤ) (s : ℤ) (r : ℤ))
          (temp1, cp2, 0)).2.2 = (k : ℤ) - (p : ℤ) + (j : ℤ)) := by
  intro j
  induction j with
  | zero =>
      intro _
      rw [show ((0 : ℕ) : ℤ) = 0 from rfl, intsFromTo_nil 1 0 (by omega)]
      refine ⟨hT1, ?_, hC0, ?_, ?_, ?_, ?_⟩
      · intro i hi
        rw [show k - p + 0 + i = k - p + i from by omega]
        exact hT2 i (by omega)
      · intro j2 h1 h2; omega
      · intro j2 h1 h2; omega
      · intro m _; rfl
      · intro h; omega
  | succ j ih =>
      intro hjr
      obtain ⟨iT1, iT2, iC0, iC2, iC4, iKeep, iL⟩ := ih (by omega)
      rw [show ((j + 1 : ℕ) : ℤ) = (j : ℤ) + 1 from by push_cast; ring,
        intsFromTo_snoc 1 ((j : ℤ) + 1) (by omega),
        show (j : ℤ) + 1 - 1 = (j : ℤ) from by ring,
        List.foldl_append, List.foldl_cons, List.foldl_nil]
      set Sj := (intsFromTo 1 (j : ℤ)).foldl
        (insertKnotSweepStep p U u (k : ℤ) (s : ℤ) (r : ℤ)) (temp1, cp2, 0) with hSj
      simp only [insertKnotSweepStep]
      set temp2 := insertKnotTempSweep p U u (k : ℤ) (s : ℤ) ((j : ℤ) + 1) Sj.1
        with htemp2
      have hT1' : temp2.length = p - s + 1 := by
        rw [htemp2, length_insertKnotTempSweep, iT1]
      have hT2' : ∀ i, i + (j + 1) + s ≤ p →
          temp2.getD i 0 = (insPit U P u k p (j + 1)).getD (k - p + (j + 1) + i) 0 := by
        intro i hi
        rw [htemp2, getD_insertKnotTempSweep]
        rw [if_pos ⟨by omega, by push_cast; omega, by omega⟩]
        have e1 : igetD U ((k : ℤ) - (p : ℤ) + ((j : ℤ) + 1) + (i : ℤ)) 0 =
            U.getD (k - p + j + 1 + i) 0 := by
          rw [igetD_nonneg _ _ _ (by omega),
            show ((k : ℤ) - (p : ℤ) + ((j : ℤ) + 1) + (i : ℤ)).toNat = k - p + j + 1 + i
              from by omega]
        have e2 : igetD U ((i : ℤ) + (k : ℤ) + 1) 0 = U.getD (k + 1 + i) 0 := by
          rw [igetD_nonneg _ _ _ (by omega),
            show ((i : ℤ) + (k : ℤ) + 1).toNat = k + 1 + i from by omega]
        rw [e1, e2, iT2 (i + 1) (by omega), iT2 i (by omega),
          show k - p + j + (i + 1) = k - p + j + 1 + i from by omega,
          show k - p + (j + 1) + i = k - p + j + 1 + i from by omega,
          insPit_round_value U P u k p s r hkn hpk hsr hk1 j i (by omega) (by omega)]
      have hA0 : igetD temp2 0 0 = (insPit U P u k p (j + 1)).getD (k - p + (j + 1)) 0 := by
        rw [igetD_nonneg _ _ _ (by omega), show ((0 : ℤ)).toNat = 0 from rfl,
          hT2' 0 (by omega), show k - p + (j + 1) + 0 = k - p + (j + 1) from by omega]
      have hB0 : igetD temp2 ((p : ℤ) - ((j : ℤ) + 1) - (s : ℤ)) 0 =
          (insPit U P u k p (j + 1)).getD (k - s) 0 := by
        rw [igetD_nonneg _ _ _ (by omega),
          show ((p : ℤ) - ((j : ℤ) + 1) - (s : ℤ)).toNat = p - (j + 1) - s from by omega,
          hT2' (p - (j + 1) - s) (by omega),
          show k - p + (j + 1) + (p - (j + 1) - s) = k - s from by omega]
      have hcoincide : ((k : ℤ) + (r : ℤ) - ((j : ℤ) + 1) - (s : ℤ) =
            (k : ℤ) - (p : ℤ) + ((j : ℤ) + 1)) → k - p + (j + 1) = k - s := by
        intro hco
        omega
      refine ⟨hT1', ?_, ?_, ?_, ?_, ?_, ?_⟩
      · intro i hi
        exact hT2' i hi
      · show (iset (iset Sj.2.1 _ _) _ _).length = P.length + r
        rw [length_iset, length_iset, iC0]
      · -- low already-final positions k - p + j2
        intro j2 h1 h2
        show (iset (iset Sj.2.1 _ _) _ _).getD (k - p + j2) 0 = _
        rw [getD_iset, getD_iset, length_iset, iC0]
        rcases Nat.lt_or_ge j2 (j + 1) with hj2 | hj2
        · rw [if_neg (by omega), if_neg (by omega)]
          exact iC2 j2 h1 (by omega)
        · have hj2e : j2 = j + 1 := by omega
          subst hj2e
          by_cases hco : (k : ℤ) + (r : ℤ) - ((j : ℤ) + 1) - (s : ℤ) =
              (k : ℤ) - (p : ℤ) + ((j : ℤ) + 1)
          · rw [if_pos ⟨by omega, by omega⟩, hB0, hcoincide hco]
          · rw [if_neg (by intro hx; exact hco (by omega)),
              if_pos ⟨by omega, by omega⟩, hA0]
      · -- right-edge positions k + r - j2 - s
        intro j2 h1 h2
        show (iset (iset Sj.2.1 _ _) _ _).getD (k + r - j2 - s) 0 = _
        rw [getD_iset, getD_iset, length_iset, iC0]
        rcases Nat.lt_or_ge j2 (j + 1) with hj2 | hj2
        · rw [if_neg (by omega), if_neg (by omega)]
          exact iC4 j2 h1 (by omega)
        · have hj2e : j2 = j + 1 := by omega
          subst hj2e
          rw [if_pos ⟨by omega, by omega⟩, hB0]
      · -- untouched positions
        intro m hm
        show (iset (iset Sj.2.1 _ _) _ _).getD m 0 = _
        rw [getD_iset, getD_iset, length_iset, iC0,
          if_neg (by intro hx; omega), if_neg (by intro hx; omega)]
        apply iKeep
        omega
      · intro _
        trivial

set_option maxHeartbeats 1600000 in
/-- The output of NurbsCurve::InsertKnot is exactly the r-fold formal Boehm
insertion: the knot vector gains r copies of u after the span position and
the control points are the r-fold insertion of the original net. -/
theorem insertKnot_eq_iterated
    (p : ℕ) (U : List ℚ) (P : List (XYZW ℚ)) (u : ℚ) (r : ℕ)
    (kvInit : List ℚ) (cpInit : List (XYZW ℚ))
    (hval : isValidKnotVector U) (hlen : U.length = P.length + p + 1)
    (hr : 1 ≤ r)
    (hsr : getKnotMultiplicity U u + r ≤ p)
    (hdl : U.getD p 0 ≤ u) (hdu : u < U.getD P.length 0) :
    InsertKnot p U P u (r : ℤ) kvInit cpInit =
      (insUit U u (getKnotSpanIndex p U u) r,
       insPit U P u (getKnotSpanIndex p U u) p r) := by
  have hp1 : 1 ≤ p := by omega
  have hPpos : 1 ≤ P.length := by
    by_contra hcon
    have hP0 : P.length = 0 := by omega
    rw [hP0] at hdu
    have := getD_mono U hval 0 p (by omega) (by omega)
    linarith
  have hplt : p < P.length := by
    by_contra hcon
    push_neg at hcon
    have := getD_mono U hval P.length p hcon (by omega)
    linarith
  set k := getKnotSpanIndex p U u with hkdef
  set s := getKnotMultiplicity U u with hsdef
  obtain ⟨hpk, hkn', hul, hur⟩ := span_spec p U u hval (by omega) hdl
    (by rw [show U.length - p - 1 = P.length from by omega]; exact hdu)
  rw [← hkdef] at hpk hkn' hul hur
  have hkn : k < P.length := by omega
  have hk1 : k + 1 < U.length := by omega
  obtain ⟨hsk1, hblock⟩ := knot_block U u k hval hk1 hul hur
  rw [← hsdef] at hsk1 hblock
  have hclamp : insertClampTimes p (s : ℤ) (r : ℤ) = (r : ℤ) := by
    unfold insertClampTimes
    rw [if_neg (by push_cast; omega)]
  show InsertKnot p U P u (r : ℤ) kvInit cpInit = _
  simp only [InsertKnot]
  rw [← hkdef, ← hsdef, hclamp, insertKnotNewKv_eq_insUit p U u k r kvInit hk1 hr]
  obtain ⟨hl2, hC1, hC5⟩ := insertKnot_cp2_chars p U P u k s r cpInit hpk hkn hsr hr
  have htemp1 : ∀ i, i + s ≤ p →
      ((intsFromTo 0 ((p : ℤ) - (s : ℤ))).foldl
        (fun tp i => iset tp i (igetD P ((k : ℤ) - (p : ℤ) + i) 0))
        (resizeTo ([] : List (XYZW ℚ)) (((p : ℤ) - (s : ℤ) + 1).toNat) 0)).getD i 0 =
      P.getD (k - p + i) 0 := by
    intro i hi
    have h := getD_foldl_iset_shift (fun i => i) 0 (fun i => by ring)
      (fun i => igetD P ((k : ℤ) - (p : ℤ) + i) 0) (((p : ℤ) - (s : ℤ)) + 1 - 0).toNat
      0 ((p : ℤ) - (s : ℤ)) rfl
      (resizeTo ([] : List (XYZW ℚ)) (((p : ℤ) - (s : ℤ) + 1).toNat) 0) i 0
    rw [h, length_resizeTo, if_pos ⟨by omega, by omega, by omega⟩,
      igetD_nonneg _ _ _ (by omega),
      show ((k : ℤ) - (p : ℤ) + ((i : ℤ) - 0)).toNat = k - p + i from by omega]
  have htemp1len : ((intsFromTo 0 ((p : ℤ) - (s : ℤ))).foldl
      (fun tp i => iset tp i (igetD P ((k : ℤ) - (p : ℤ) + i) 0))
      (resizeTo ([] : List (XYZW ℚ)) (((p : ℤ) - (s : ℤ) + 1).toNat) 0)).length =
      p - s + 1 := by
    rw [length_foldl_of_step _ (fun l i => length_iset _ _ _), length_resizeTo]
    omega
  rw [insertKnotSweeps_eq_foldl]
  obtain ⟨fT1, fT2, fC0, fC2, fC4, fKeep, fL⟩ :=
    insertKnot_sweeps_inv p U P u k s r hpk hkn hsr hr hk1 _ _ htemp1len htemp1
      hl2 r (le_refl r)
  set SF := (intsFromTo 1 (r : ℤ)).foldl
    (insertKnotSweepStep p U u (k : ℤ) (s : ℤ) (r : ℤ))
    ((intsFromTo 0 ((p : ℤ) - (s : ℤ))).foldl
      (fun tp i => iset tp i (igetD P ((k : ℤ) - (p : ℤ) + i) 0))
      (resizeTo ([] : List (XYZW ℚ)) (((p : ℤ) - (s : ℤ) + 1).toNat) 0),
     (intsFromTo ((k : ℤ) - (s : ℤ)) ((P.length : ℤ) - 1)).foldl
      (fun cp i => iset cp (i + (r : ℤ)) (igetD P i 0))
      ((intsFromTo 0 ((k : ℤ) - (p : ℤ))).foldl
        (fun cp i => iset cp i (igetD P i 0))
        (resizeTo cpInit (((P.length : ℤ) + (r : ℤ)).toNat) 0)), 0) with hSF
  have hL : SF.2.2 = (k : ℤ) - (p : ℤ) + (r : ℤ) := fL hr
  rw [hL]
  rw [Prod.mk.injEq]
  refine ⟨rfl, ?_⟩
  apply list_ext_getD (0 : XYZW ℚ)
  · rw [length_foldl_of_step _ (fun l i => length_iset _ _ _), fC0, length_insPit]
  · intro m hm
    rw [length_foldl_of_step _ (fun l i => length_iset _ _ _), fC0] at hm
    have htail := getD_foldl_iset_shift (fun i => i) 0 (fun i => by ring)
      (fun i => igetD SF.1 (i - ((k : ℤ) - (p : ℤ) + (r : ℤ))) 0)
      (((k : ℤ) - (s : ℤ) - 1) + 1 - ((k : ℤ) - (p : ℤ) + (r : ℤ) + 1)).toNat
      ((k : ℤ) - (p : ℤ) + (r : ℤ) + 1) ((k : ℤ) - (s : ℤ) - 1) rfl SF.2.1 m 0
    rw [htail, fC0]
    have hregion : m + p ≤ k ∨ (k - p + 1 ≤ m ∧ m ≤ k - p + r) ∨
        (k - p + r + 1 ≤ m ∧ m + s + 1 ≤ k) ∨
        (k ≤ m + s ∧ m + s + 1 ≤ k + r) ∨ k + r ≤ m + s := by
      omega
    rcases hregion with h1 | h2 | h3 | h4 | h5
    · -- low region: untouched copies of P
      have hiter := insPit_low_iter U P u k p hkn r 0 m (by omega)
      rw [Nat.zero_add] at hiter
      rw [if_neg (by omega), fKeep m (Or.inl h1), hC1 m h1 hm, hiter]
      rfl
    · -- positions finalized by round j2 = m - (k - p)
      have hiter := insPit_low_iter U P u k p hkn (r - (m - (k - p))) (m - (k - p)) m
        (by omega)
      rw [show m - (k - p) + (r - (m - (k - p))) = r from by omega] at hiter
      have hpos := fC2 (m - (k - p)) (by omega) (by omega)
      rw [show k - p + (m - (k - p)) = m from by omega] at hpos
      rw [if_neg (by omega), hpos, hiter]
    · -- middle region: the tail copy out of the temp buffer
      rw [if_pos ⟨by omega, by omega, by omega⟩,
        igetD_nonneg _ _ _ (by omega),
        show (((m : ℤ) - 0) - ((k : ℤ) - (p : ℤ) + (r : ℤ))).toNat = m - (k - p + r)
          from by omega,
        fT2 (m - (k - p + r)) (by omega),
        show k - p + r + (m - (k - p + r)) = m from by omega]
    · -- right-edge region: finalized by round j2 = k + r - s - m
      have hiter := insPit_high_iter U P u k p s r hkn hpk hsr hblock hk1
        (m - (k - s)) (k + r - s - m) m (by omega) (by omega) (by omega)
      rw [show k + r - s - m + (m - (k - s)) = r from by omega,
        show m - (m - (k - s)) = k - s from by omega] at hiter
      have hpos := fC4 (k + r - s - m) (by omega) (by omega)
      rw [show k + r - (k + r - s - m) - s = m from by omega] at hpos
      rw [if_neg (by omega), hpos, hiter]
    · -- high region: untouched shifted copies of P
      have hiter := insPit_high_iter U P u k p s r hkn hpk hsr hblock hk1 r 0 m
        (by omega) (by omega) (by omega)
      rw [Nat.zero_add] at hiter
      rw [if_neg (by omega), fKeep m (Or.inr (Or.inr h5)), hC5 m (by omega) hm, hiter]
      rfl

/-- C1: for every valid NURBS curve (degree p, valid knot vector U, control
points P with positive weights), every knot value u with insertion count r at
most p minus the current multiplicity, and every parameter t, evaluating the
curve after InsertKnot equals evaluating it before (exactly, hence in
particular within the distance tolerance):
GetPointOnCurve(p, U, t, P) = GetPointOnCurve(p, U', t, P') for
(U', P') = InsertKnot(p, U, P, u, r). -/
theorem insertKnot_preserves_curve
    (p : ℕ) (U : List ℚ) (P : List (XYZW ℚ)) (u : ℚ) (r : ℕ) (t : ℚ)
    (kvInit : List ℚ) (cpInit : List (XYZW ℚ))
    (hval : isValidKnotVector U)
    (hnurbs : isValidNurbs p U.length P.length)
    (hw : ∀ q ∈ P, 0 < getW q)
    (hr : 1 ≤ r)
    (hsr : getKnotMultiplicity U u + r ≤ p)
    (hdl : U.getD p 0 ≤ u) (hdu : u < U.getD P.length 0) :
    GetPointOnCurve p U t P =
      GetPointOnCurve p (InsertKnot p U P u (r : ℤ) kvInit cpInit).1 t
        (InsertKnot p U P u (r : ℤ) kvInit cpInit).2 := by
  unfold isValidNurbs at hnurbs
  rw [insertKnot_eq_iterated p U P u r kvInit cpInit hval hnurbs hr hsr hdl hdu]
  have hp1 : 1 ≤ p := by omega
  have hPpos : 1 ≤ P.length := by
    by_contra hcon
    have hP0 : P.length = 0 := by omega
    rw [hP0] at hdu
    have := getD_mono U hval 0 p (by omega) (by omega)
    linarith
  have hplt : p < P.length := by
    by_contra hcon
    push_neg at hcon
    have := getD_mono U hval P.length p hcon (by omega)
    linarith
  obtain ⟨hpk, hkn', hul, hur⟩ := span_spec p U u hval (by omega) hdl
    (by rw [show U.length - p - 1 = P.length from by omega]; exact hdu)
  have hkn : getKnotSpanIndex p U u < P.length := by omega
  have hk1 : getKnotSpanIndex p U u + 1 < U.length := by omega
  have hcomp := curvePointH_insPit U P u (getKnotSpanIndex p U u) p hval hk1 hul hur
    hpk hkn hnurbs r t
  have hfun : curvePointH U P p t =
      curvePointH (insUit U u (getKnotSpanIndex p U u) r)
        (insPit U P u (getKnotSpanIndex p U u) p r) p t := funext hcomp
  unfold GetPointOnCurve
  rw [hfun]

/-- Witness for insertKnot_preserves_curve: degree 1 on knots [0,0,2,2],
two unit-weight control points, inserting u = 1 once, evaluated at t = 1. -/
theorem insertKnot_preserves_curve_witness :
    GetPointOnCurve 1 [0, 0, 2, 2] 1 [![0, 0, 0, 1], ![2, 0, 0, 1]] =
      GetPointOnCurve 1
        (InsertKnot 1 [0, 0, 2, 2] [![0, 0, 0, 1], ![2, 0, 0, 1]] 1 (1 : ℤ) [] []).1 1
        (InsertKnot 1 [0, 0, 2, 2] [![0, 0, 0, 1], ![2, 0, 0, 1]] 1 (1 : ℤ) [] []).2 :=
  insertKnot_preserves_curve 1 [0, 0, 2, 2] [![0, 0, 0, 1], ![2, 0, 0, 1]] 1 1 1 [] []
    (by norm_num [isValidKnotVector, List.chain'_cons]) (by decide)
    (by
      intro q hq
      rcases List.mem_cons.mp hq with h | h
      · rw [h]; norm_num [getW]
      · rcases List.mem_cons.mp h with h2 | h2
        · rw [h2]; norm_num [getW]
        · simp at h2)
    (by decide)
    (by norm_num [getKnotMultiplicity, List.filter])
    (by norm_num [List.getD_cons_succ, List.getD_cons_zero])
    (by norm_num [List.getD_cons_succ, List.getD_cons_zero])

end LNLib